import Mathlib

/-!
Verification of the comment-extraction core of the obsidian-comments plugin
(src/main.ts): the extractor `findComments`, the sidebar reconciliation in
`CommentView.setComments`, and the remove splice in `CommentView.removeComment`.
Text is modelled as `List Char`; the JS regex
`/> \[!comment\] (.+?)\n((?:> *.*\n?)+)/gi` and the string operations used by
the source are embedded operationally below.
-/

namespace ObsComments

/-- Characters the JS regex `.` does not match (the regex has no `s` flag). -/
def jsDot (c : Char) : Bool :=
  !(c == '\n' || c == '\r' || c == '\u2028' || c == '\u2029')

/-- JS whitespace as used by `String.prototype.trim` and the `\s` class:
space, tab, line terminators (LF, CR, LS, PS), form/vertical feed, NBSP,
BOM, and the Unicode Zs space code points. -/
def jsWs (c : Char) : Bool :=
  c == ' ' || c == '\t' || c == '\n' || c == '\r' || c == '\x0b' ||
  c == '\x0c' || c == '\u00a0' || c == '\ufeff' || c == '\u1680' ||
  c == '\u2000' || c == '\u2001' || c == '\u2002' || c == '\u2003' ||
  c == '\u2004' || c == '\u2005' || c == '\u2006' || c == '\u2007' ||
  c == '\u2008' || c == '\u2009' || c == '\u200a' || c == '\u2028' ||
  c == '\u2029' || c == '\u202f' || c == '\u205f' || c == '\u3000'

/-- Case-insensitive character comparison (the regex `i` flag; the pattern
letters are all ASCII). -/
def charCI (a b : Char) : Bool := a.toLower == b.toLower

/-- `s.trim()`. -/
def jsTrim (s : List Char) : List Char :=
  ((s.dropWhile jsWs).reverse.dropWhile jsWs).reverse

/-- Number of newline characters, as by `s.match(/\n/g)`. -/
def countNl : List Char → Nat
  | [] => 0
  | c :: cs => (if c == '\n' then 1 else 0) + countNl cs

/-- `s.split('\n')`. -/
def splitNl : List Char → List (List Char)
  | [] => [[]]
  | c :: cs =>
    if c == '\n' then [] :: splitNl cs
    else
      match splitNl cs with
      | [] => [[c]]
      | l :: ls => (c :: l) :: ls

/-- `lines.join('\n')`. -/
def joinNl : List (List Char) → List Char
  | [] => []
  | [l] => l
  | l :: ls => l ++ '\n' :: joinNl ls

/-- Does `pat` occur at the head of `s` (case-sensitive)? -/
def isPfx : List Char → List Char → Bool
  | [], _ => true
  | _ :: _, [] => false
  | p :: ps, c :: cs => p == c && isPfx ps cs

/-- `s.indexOf(pat)` (first occurrence, case-sensitive). -/
def subIndex (pat : List Char) : List Char → Option Nat
  | [] => if isPfx pat [] then some 0 else none
  | c :: t => if isPfx pat (c :: t) then some 0 else (subIndex pat t).map (· + 1)

/-- `s.indexOf('>')`. -/
def idxOfGt : List Char → Option Nat
  | [] => none
  | c :: t => if c == '>' then some 0 else (idxOfGt t).map (· + 1)

/-- Strip an exact (case-sensitive) pattern from the head. -/
def stripPfx : List Char → List Char → Option (List Char)
  | [], s => some s
  | _ :: _, [] => none
  | p :: ps, c :: cs => if p == c then stripPfx ps cs else none

/-- Strip a case-insensitive pattern from the head. -/
def stripPfxCI : List Char → List Char → Option (List Char)
  | [], s => some s
  | _ :: _, [] => none
  | p :: ps, c :: cs => if charCI p c then stripPfxCI ps cs else none

/-- Leftmost-match search: try the anchored pattern at every start position,
as a JS regex engine scans for a match. -/
def scanFirst {α : Type} (p : List Char → Option α) : List Char → Option α
  | [] => p []
  | c :: t =>
    match p (c :: t) with
    | some r => some r
    | none => scanFirst p t

def digitVal (c : Char) : Nat := c.toNat - '0'.toNat

/-- Consume exactly `n` decimal digits, accumulating their value
(`parseInt` on a fixed-width digit group). -/
def takeDigits : Nat → Nat → List Char → Option (Nat × List Char)
  | 0, acc, s => some (acc, s)
  | _ + 1, _, [] => none
  | n + 1, acc, c :: s =>
    if c.isDigit then takeDigits n (acc * 10 + digitVal c) s else none

/-- The arguments of the JS call
`new Date(year, month - 1, day, hours, minutes)` built by the timestamp
parser (month is the human 1-based month as parsed from the text; a
date-only timestamp gets hours = minutes = 0, as does the JS `Date`). -/
structure Timestamp where
  year : Nat
  month : Nat
  day : Nat
  hours : Nat
  minutes : Nat
deriving DecidableEq, Repr

/-- Anchored `\[\[(\d{4}-\d{2}-\d{2})\]\]` (source line 374). -/
def wikiDateAt (s : List Char) : Option (Nat × Nat × Nat) := do
  let s ← stripPfx ("[[".toList) s
  let (y, s) ← takeDigits 4 0 s
  let s ← stripPfx ("-".toList) s
  let (mo, s) ← takeDigits 2 0 s
  let s ← stripPfx ("-".toList) s
  let (d, s) ← takeDigits 2 0 s
  let _ ← stripPfx ("]]".toList) s
  pure (y, mo, d)

/-- Anchored `\]\]\s+(\d{2}):(\d{2})` (source line 380). -/
def timeAt (s : List Char) : Option (Nat × Nat) := do
  let s ← stripPfx ("]]".toList) s
  let w := s.takeWhile jsWs
  let s := s.dropWhile jsWs
  if w = [] then none
  else
    let (hh, s) ← takeDigits 2 0 s
    let s ← stripPfx (":".toList) s
    let (mm, _) ← takeDigits 2 0 s
    pure (hh, mm)

/-- The `(\d{1,2})\/(\d{4})`-style tail of the legacy pattern: month then
year, with the greedy-then-backtrack behaviour of `\d{1,2}`. -/
def legacyTail (s : List Char) : Option (Nat × Nat) :=
  (do
    let (mo, s) ← takeDigits 2 0 s
    let s ← stripPfx ("/".toList) s
    let (y, _) ← takeDigits 4 0 s
    pure (mo, y)) <|>
  (do
    let (mo, s) ← takeDigits 1 0 s
    let s ← stripPfx ("/".toList) s
    let (y, _) ← takeDigits 4 0 s
    pure (mo, y))

/-- Anchored `(\d{1,2})\/(\d{1,2})\/(\d{4})` (source line 390). -/
def legacyAt (s : List Char) : Option (Nat × Nat × Nat) :=
  (do
    let (d, s) ← takeDigits 2 0 s
    let s ← stripPfx ("/".toList) s
    let (mo, y) ← legacyTail s
    pure (d, mo, y)) <|>
  (do
    let (d, s) ← takeDigits 1 0 s
    let s ← stripPfx ("/".toList) s
    let (mo, y) ← legacyTail s
    pure (d, mo, y))

/-- Timestamp parsing of the text after the `| ` separator
(source lines 369-395). -/
def parseTs (ts : List Char) : Option Timestamp :=
  if (subIndex ("[[".toList) ts).isSome && (subIndex ("]]".toList) ts).isSome then
    match scanFirst wikiDateAt ts with
    | some (y, mo, d) =>
      match scanFirst timeAt ts with
      | some (hh, mm) => some ⟨y, mo, d, hh, mm⟩
      | none => some ⟨y, mo, d, 0, 0⟩
    | none => none
  else
    match scanFirst legacyAt ts with
    | some (d, mo, y) => some ⟨y, mo, d, 0, 0⟩
    | none => none

/-- Name/timestamp split of the trimmed header capture (source lines
367-398): find `'| '`, parse the trimmed suffix as a timestamp, truncate the
name at the separator; without a separator the name is kept whole and the
timestamp stays undefined. -/
def nameTs (nm : List Char) : List Char × Option Timestamp :=
  match subIndex ("| ".toList) nm with
  | some i => (nm.take i, parseTs (jsTrim (nm.drop (i + 2))))
  | none => (nm, none)

/-- The body group `((?:> *.*\n?)+)` after its first `>` has been checked:
consume `.`-chars of the current line; at a newline continue only when the
next line again starts with `>` (else the greedy `\n?` still consumes the
newline and the group ends); stop before any other line terminator. Returns
(captured group, rest of the text). -/
def bodyRun : List Char → List Char × List Char
  | [] => ([], [])
  | c :: cs =>
    if jsDot c then
      let (a, r) := bodyRun cs
      (c :: a, r)
    else if c == '\n' then
      match cs with
      | '>' :: _ =>
        let (a, r) := bodyRun cs
        ('\n' :: a, r)
      | _ => (['\n'], cs)
    else ([], c :: cs)

/-- The literal part of the header pattern `> \[!comment\] `. -/
def hdrPat : List Char := "> [!comment] ".toList

/-- One match of `/> \[!comment\] (.+?)\n((?:> *.*\n?)+)/i` anchored at the
current position: raw first capture, raw second capture, remaining text,
`match[0].length`, and the newline count of `match[0]`. -/
structure MRes where
  nameRaw : List Char
  body : List Char
  rest : List Char
  len : Nat
  nl : Nat
deriving Repr

/-- Try the comment-marker pattern at the current position. The first
capture `(.+?)` is at least one `.`-char followed by a literal newline; the
second needs at least one `>`-started line. -/
def tryMatch (cs : List Char) : Option MRes :=
  match stripPfxCI hdrPat cs with
  | none => none
  | some s1 =>
    match s1.takeWhile jsDot, s1.dropWhile jsDot with
    | [], _ => none
    | nm, '\n' :: s2 =>
      match s2 with
      | '>' :: _ =>
        let (b, r) := bodyRun s2
        some ⟨nm, b, r, hdrPat.length + nm.length + 1 + b.length, 1 + countNl b⟩
      | _ => none
    | _, _ => none

structure EPos where
  line : Nat
  ch : Nat
deriving DecidableEq, Repr

/-- One parsed comment block (the `Comment` interface of the source; the
`file` handle is host state and is not part of the parsing core). -/
inductive Comment : Type where
  | mk (name : List Char) (content : List Char)
      (startPos endPos contentPos : EPos)
      (children : List Comment) (timestamp : Option Timestamp)
      (childrenHidden : Bool)
deriving Repr

def Comment.name : Comment → List Char
  | .mk n _ _ _ _ _ _ _ => n

def Comment.content : Comment → List Char
  | .mk _ c _ _ _ _ _ _ => c

def Comment.startPos : Comment → EPos
  | .mk _ _ s _ _ _ _ _ => s

def Comment.endPos : Comment → EPos
  | .mk _ _ _ e _ _ _ _ => e

def Comment.contentPos : Comment → EPos
  | .mk _ _ _ _ p _ _ _ => p

def Comment.children : Comment → List Comment
  | .mk _ _ _ _ _ ch _ _ => ch

def Comment.timestamp : Comment → Option Timestamp
  | .mk _ _ _ _ _ _ t _ => t

def Comment.childrenHidden : Comment → Bool
  | .mk _ _ _ _ _ _ _ h => h

/-- The line-number formula
`(prefix.match(/\n/g)?.length || -1) + 1` applied to a newline count `n`:
`match` yields `null` (so `-1 + 1 = 0`) when the count is zero. -/
def jsL (n : Nat) : Nat := if n = 0 then 0 else n + 1

/-- `line.replace(/^>/, '')`: remove a single leading `>`. -/
def dropGt : List Char → List Char
  | '>' :: t => t
  | l => l

/-- The per-line stripping of the captured body (source lines 401-403). -/
def stripLine (l : List Char) : List Char := jsTrim (dropGt l)

/-- `match[2]` put through split / strip / trim / join (source lines
401-403). -/
def contentOf (b : List Char) : List Char :=
  joinNl ((splitNl b).map stripLine)

/-- The contentPos of a discovered comment (source lines 413-414): the
inherited parent content position when in a nested call, the comment's own
end line otherwise. -/
def cPosOf : Option EPos → Nat → EPos
  | none, endLine => ⟨endLine, 0⟩
  | some p, _ => p

/-- Content truncation at the first `>` (source lines 420-421). -/
def truncGt (s : List Char) : List Char :=
  match idxOfGt s with
  | some i => s.take i
  | none => s

/-- The matchAll loop of `findComments` (source lines 351-427), fuel-indexed
so it stays structural. `cs` is the text not yet consumed, `idx` the
character offset already consumed (the `match.index` of a match found at the
head), `nl` the newline count of the consumed prefix, `offLine` the
`posOffset.line` argument, and `inh` the optional `parentContentPos`. A
failed position advances one character; a match at `match.index = 0` is
dropped by the source's falsy-index guard (line 362) with the scan resuming
after the whole match, exactly as `continue` does. -/
def scanF : Nat → List Char → Nat → Nat → Nat → Option EPos → List Comment
  | 0, _, _, _, _, _ => []
  | f + 1, cs, idx, nl, offLine, inh =>
    match tryMatch cs with
    | some m =>
      if idx = 0 then
        scanF f m.rest (idx + m.len) (nl + m.nl) offLine inh
      else
        let nmts := nameTs (jsTrim m.nameRaw)
        let content0 := contentOf m.body
        let startP : EPos := ⟨jsL nl + offLine, 0⟩
        let endP : EPos := ⟨jsL (nl + m.nl) + offLine, 0⟩
        let cP : EPos := cPosOf inh endP.line
        let kids := scanF f content0 0 0 startP.line (some cP)
        let content : List Char := truncGt content0
        Comment.mk nmts.1 content startP endP cP kids nmts.2 false ::
          scanF f m.rest (idx + m.len) (nl + m.nl) offLine inh
    | none =>
      match cs with
      | [] => []
      | c :: t => scanF f t (idx + 1) (nl + (if c == '\n' then 1 else 0)) offLine inh

/-- The top-level extraction entry point: `findComments` called on the whole
file text with a zero `posOffset` and no `parentContentPos`. -/
def findComments (text : List Char) : List Comment :=
  scanF (text.length + 1) text 0 0 0 none

/-- Overwrite only the UI-carried `childrenHidden` field. -/
def Comment.withHidden : Comment → Bool → Comment
  | .mk n c s e cp ch ts _, b => .mk n c s e cp ch ts b

/-- The reconciliation match key of `setComments` (source lines 491-495):
equal content, equal name, equal child count. -/
def tripleEq (p n : Comment) : Bool :=
  p.content == n.content && p.name == n.name &&
    p.children.length == n.children.length

/-- `Array.prototype.findIndex`. -/
def findIdxB (p : Comment → Bool) : List Comment → Option Nat
  | [] => none
  | c :: t => if p c then some 0 else (findIdxB p t).map (· + 1)

def setHiddenAt : List Comment → Nat → Bool → List Comment
  | [], _, _ => []
  | c :: t, 0, b => c.withHidden b :: t
  | c :: t, i + 1, b => c :: setHiddenAt t i b

/-- One iteration of the `forEach` over the previous comments (source lines
489-499): the first fresh node whose triple matches gets the old node's
`childrenHidden`. -/
def applyPrev (acc : List Comment) (p : Comment) : List Comment :=
  match findIdxB (fun n => tripleEq p n) acc with
  | some i => setHiddenAt acc i p.childrenHidden
  | none => acc

/-- The state-carrying loop of `setComments` over a previous top-level list. -/
def reconcile (prev fresh : List Comment) : List Comment :=
  prev.foldl applyPrev fresh

/-- `setComments` (source lines 486-504): when no previous tree is stored
for the file the fresh list is kept unchanged, otherwise each previous node
is matched into the fresh list. -/
def setComments : Option (List Comment) → List Comment → List Comment
  | none, fresh => fresh
  | some prev, fresh => reconcile prev fresh

/-- `Array.prototype.splice(start, deleteCount)` restricted to deletion:
negative starts count from the end and are clamped at 0, the count is
clamped to the available elements. -/
def jsSpliceDel {α : Type} (l : List α) (start delCount : Int) : List α :=
  let len : Int := l.length
  let s := if start < 0 then max (len + start) 0 else min start len
  let d := max delCount 0
  l.take s.toNat ++ (l.drop s.toNat).drop d.toNat

/-- `removeComment` (source lines 772-784): split into lines, splice out
`endPos.line - startPos.line` lines starting at `startPos.line - 1`, join. -/
def removeComment (text : List Char) (c : Comment) : List Char :=
  joinNl (jsSpliceDel (splitNl text)
    ((c.startPos.line : Int) - 1)
    ((c.endPos.line : Int) - (c.startPos.line : Int)))

def c1doc1 : List Char := "x\n> [!comment] NAME | [[2025-07-05]] 14:30\n> b\n".toList

def c1doc2 : List Char := "x\n> [!comment] NAME | 05/07/2025\n> b\n".toList

def c1doc3 : List Char := "x\n> [!comment] NAME\n> b\n".toList

def c1doc4 : List Char := "x\n> [!comment] NAME | not a date\n> b\n".toList

def c1doc5 : List Char := "x\n> [!comment] NAME | [[julian]] 14:30\n> b\n".toList

def c2doc : List Char := "x\n> [!comment] A\n> b\n\n> [!comment] A\n> b\n".toList

def c2fresh : List Comment := findComments c2doc

def c2prev : List Comment := setHiddenAt c2fresh 1 true

def c3doc1 : List Char := "> [!comment] A\n> x\n".toList

def c3doc2 : List Char := "x\n> [!comment] A\n\nok\n".toList

def c4doc : List Char := "> [!comment] A\n> x\n>> [!comment] B\n>> y\n".toList

def c4docPre : List Char := "x\n> [!comment] A\n> x\n>> [!comment] B\n>> y\n".toList

def c5doc : List Char := "x\n> [!comment] A\n> y".toList

def c6doc : List Char := "> [!comment] A\n> x\n".toList

def c7doc : List Char := "x\n> [!comment] A\n> b\n\n> [!comment] A\n> b\n".toList

def c7c0 : Comment :=
  Comment.mk ("A".toList) ("b\n".toList) ⟨2, 0⟩ ⟨4, 0⟩ ⟨4, 0⟩ [] none false

def c7c1 : Comment :=
  Comment.mk ("A".toList) ("b\n".toList) ⟨5, 0⟩ ⟨7, 0⟩ ⟨7, 0⟩ [] none false

def c9doc : List Char := "x\n> [!comment] A\n> x\n>> [!comment] B\n>> y\n".toList

def c10doc : List Char := "x\n> [!comment] A\n> a > b\n".toList

/-- The content of a node and, hereditarily, of all nodes below it is free
of `>` characters. -/
inductive GtFree : Comment → Prop where
  | mk : ∀ n ct s e cp ch ts hd, '>' ∉ ct → (∀ d ∈ ch, GtFree d) →
      GtFree (Comment.mk n ct s e cp ch ts hd)

/-- Every node of the tree, the root included, has `p` as its contentPos. -/
inductive AllCP (p : EPos) : Comment → Prop where
  | mk : ∀ n ct s e ch ts hd, (∀ d ∈ ch, AllCP p d) →
      AllCP p (Comment.mk n ct s e p ch ts hd)

def c8nodeB : Comment :=
  Comment.mk ("B".toList) ("y\n".toList) ⟨4, 0⟩ ⟨6, 0⟩ ⟨6, 0⟩ [] none false

def c8nodeA : Comment :=
  Comment.mk ("A".toList) ("x\n".toList) ⟨2, 0⟩ ⟨6, 0⟩ ⟨6, 0⟩ [c8nodeB] none false

/-- A default comment for total indexing. -/
def cNil : Comment := Comment.mk [] [] ⟨0, 0⟩ ⟨0, 0⟩ ⟨0, 0⟩ [] none false

/-- The reconciliation match key as data. -/
def tripleOf (c : Comment) : List Char × List Char × Nat :=
  (c.name, c.content, c.children.length)

/-- The hidden flag the loop leaves at a position matched by triple `t`:
the last matching previous node wins. -/
def lastMatch (t : List Char × List Char × Nat) (prev : List Comment) (b : Bool) : Bool :=
  prev.foldl (fun h p => if tripleOf p = t then p.childrenHidden else h) b

def c2base : List Comment :=
  findComments ("x\n> [!comment] A\n> a\n\n> [!comment] B\n> b\n".toList)

/-- The position invariants, hereditarily: start line strictly below end
line, every child starting inside the parent's range and ending no later
than the parent. -/
inductive PosInv : Comment → Prop where
  | mk : ∀ n ct s e cp ch ts hd,
      s.line < e.line →
      (∀ d ∈ ch, s.line ≤ d.startPos.line ∧ d.startPos.line < e.line ∧
        d.endPos.line ≤ e.line) →
      (∀ d ∈ ch, PosInv d) →
      PosInv (Comment.mk n ct s e cp ch ts hd)

def c9nodeB : Comment :=
  Comment.mk ("B".toList) ("y\n".toList) ⟨4, 0⟩ ⟨6, 0⟩ ⟨6, 0⟩ [] none false

def c9nodeA : Comment :=
  Comment.mk ("A".toList) ("x\n".toList) ⟨2, 0⟩ ⟨6, 0⟩ ⟨6, 0⟩ [c9nodeB] none false

/-- A top-level non-nested comment block: a header name and the body-line
contents following each line's `>` marker. -/
structure Block where
  bname : List Char
  blines : List (List Char)

/-- A text line that can never start or continue a comment match: no
character case-folds to `>` and every character is matched by the regex
`.` (so no stray line terminators). -/
def goodLine (l : List Char) : Prop :=
  ∀ c ∈ l, charCI '>' c = false ∧ jsDot c = true

instance (l : List Char) : Decidable (goodLine l) := by
  unfold goodLine; infer_instance

def goodBlock (b : Block) : Prop :=
  b.bname ≠ [] ∧ (∀ c ∈ b.bname, charCI '>' c = false ∧ jsDot c = true) ∧
  b.blines ≠ [] ∧ (∀ l ∈ b.blines, goodLine l)

instance (b : Block) : Decidable (goodBlock b) := by
  unfold goodBlock; infer_instance

/-- A name the header parser returns unchanged: already trimmed and free of
the `'| '` separator. -/
def plainName (n : List Char) : Prop :=
  jsTrim n = n ∧ subIndex ("| ".toList) n = none

instance (n : List Char) : Decidable (plainName n) := by
  unfold plainName; infer_instance

def renderLine (l : List Char) : List Char := l ++ ['\n']

def renderSep (ls : List (List Char)) : List Char := (ls.map renderLine).flatten

def renderBody (bls : List (List Char)) : List Char :=
  (bls.map (fun l => '>' :: l ++ ['\n'])).flatten

def renderBlock (b : Block) : List Char :=
  hdrPat ++ b.bname ++ '\n' :: renderBody b.blines

/-- The body with no newline after its final line (a block ending the
document without a trailing newline). -/
def renderBodyEnd (bls : List (List Char)) : List Char :=
  joinNl (bls.map (fun l => '>' :: l))

def renderBlockEnd (b : Block) : List Char :=
  hdrPat ++ b.bname ++ '\n' :: renderBodyEnd b.blines

def c7wdoc : List Char :=
  renderSep [['x']] ++ (renderBlock ⟨"A".toList, [['b']]⟩ ++ renderSep [['z']])

def c7wc : Comment :=
  Comment.mk (nameTs (jsTrim "A".toList)).1 (joinNl ([['b']].map jsTrim) ++ ['\n'])
    ⟨2, 0⟩ ⟨4, 0⟩ ⟨4, 0⟩ [] (nameTs (jsTrim "A".toList)).2 false

def renderPair (sb : List (List Char) × Block) : List Char :=
  renderSep sb.1 ++ renderBlock sb.2

/-- A document: for each block, nonempty `>`-free filler then the block;
then trailing `>`-free filler. -/
def renderDoc (sbs : List (List (List Char) × Block)) (tl : List (List Char)) : List Char :=
  (sbs.map renderPair).flatten ++ renderSep tl

def goodPair (sb : List (List Char) × Block) : Prop :=
  sb.1 ≠ [] ∧ (∀ l ∈ sb.1, goodLine l) ∧ goodBlock sb.2

instance (sb : List (List Char) × Block) : Decidable (goodPair sb) := by
  unfold goodPair; infer_instance

def c3sbs : List (List (List Char) × Block) :=
  [([['x']], ⟨"A".toList, [['a']]⟩), ([[]], ⟨"B | 05/07/2025".toList, [['b']]⟩)]

/-- Claim C1 is false as stated: the header `NAME | [[2025-07-05]] 14:30`
does not yield `name = "NAME"`. The source truncates with
`name.slice(0, name.indexOf('| '))`, which keeps every character before the
pipe, so the space preceding `|` stays in the name and the result is
`"NAME "`. -/
theorem c1_counterexample :
    (findComments c1doc1).map Comment.name = ["NAME ".toList] ∧
    "NAME ".toList ≠ "NAME".toList :=
  ⟨rfl, by decide⟩

/-- Claim C1, amended: a header `NAME | [[2025-07-05]] 14:30` yields
`name = "NAME "` (everything before the pipe, trailing space included) and
the timestamp arguments July 5 2025, 14:30; a header `NAME | 05/07/2025`
yields the same name and date with time 00:00; a header `NAME` with no `|`
yields `timestamp = none` with the name unchanged; and for EVERY header
whose `| ` suffix is in an unrecognized format, no error is raised, the
timestamp is left `none`, and the name is truncated at the separator
exactly as if parsing had succeeded. The two final conjuncts state the
universal clause over the header parser: whenever a `'| '` separator is
present (at first index `i`), the name is unconditionally `take i` of the
header, independent of the timestamp outcome; and when additionally the
suffix is undecodable (`parseTs` yields `none`) the result is exactly the
truncated name with no timestamp. The fourth and fifth conjuncts exercise
both unrecognized paths concretely: a bare word, and a bracketed suffix
`[[julian]] 14:30` whose wiki-date match fails with no legacy fallback. -/
theorem c1_amended :
    findComments c1doc1 =
      [Comment.mk ("NAME ".toList) ("b\n".toList) ⟨2, 0⟩ ⟨4, 0⟩ ⟨4, 0⟩ []
        (some ⟨2025, 7, 5, 14, 30⟩) false] ∧
    findComments c1doc2 =
      [Comment.mk ("NAME ".toList) ("b\n".toList) ⟨2, 0⟩ ⟨4, 0⟩ ⟨4, 0⟩ []
        (some ⟨2025, 7, 5, 0, 0⟩) false] ∧
    findComments c1doc3 =
      [Comment.mk ("NAME".toList) ("b\n".toList) ⟨2, 0⟩ ⟨4, 0⟩ ⟨4, 0⟩ []
        none false] ∧
    findComments c1doc4 =
      [Comment.mk ("NAME ".toList) ("b\n".toList) ⟨2, 0⟩ ⟨4, 0⟩ ⟨4, 0⟩ []
        none false] ∧
    findComments c1doc5 =
      [Comment.mk ("NAME ".toList) ("b\n".toList) ⟨2, 0⟩ ⟨4, 0⟩ ⟨4, 0⟩ []
        none false] ∧
    (∀ (nm : List Char) (i : Nat), subIndex ("| ".toList) nm = some i →
      (nameTs nm).1 = nm.take i) ∧
    (∀ (nm : List Char) (i : Nat), subIndex ("| ".toList) nm = some i →
      parseTs (jsTrim (nm.drop (i + 2))) = none →
      nameTs nm = (nm.take i, none)) :=
  ⟨rfl, rfl, rfl, rfl, rfl,
    fun nm i h => by simp only [nameTs, h],
    fun nm i h h2 => by simp only [nameTs, h, h2]⟩

/-- Witness for C1's universal clauses at a concrete header: the suffix
`[[julian]] 14:30` is unrecognized, the timestamp stays `none`, and the
name is truncated at the separator. -/
theorem c1_amended_witness :
    nameTs ("NAME | [[julian]] 14:30".toList)
      = (("NAME | [[julian]] 14:30".toList).take 5, none) :=
  c1_amended.2.2.2.2.2.2 ("NAME | [[julian]] 14:30".toList) 5 (by decide) (by decide)

/-- Claim C2 is false as stated for duplicate siblings: `c2doc` holds two
comments with identical (name, content, children.length) triples; collapsing
the second one and reconciling against a re-parse of the identical text moves
the collapsed state to the FIRST node (findIndex returns the first triple
match), so the collapsed node (index 1) comes back expanded. -/
theorem c2_counterexample :
    c2prev.map Comment.childrenHidden = [false, true] ∧
    (reconcile c2prev c2fresh).map Comment.childrenHidden = [true, false] :=
  ⟨rfl, rfl⟩

/-- Claim C3 is false as stated: `c3doc1` contains one top-level comment
block but it starts at character offset 0, and the guard
`if (!match.index) continue` treats index 0 as missing, so extraction
returns no nodes; `c3doc2` contains one block consisting of the header line
alone, which the regex (needing at least one `>` continuation line) never
matches, so extraction again returns no nodes. -/
theorem c3_counterexample :
    findComments c3doc1 = [] ∧ findComments c3doc2 = [] :=
  ⟨rfl, rfl⟩

/-- Claim C4 is false as stated: the quoted input starts with its comment
marker at offset 0, so the falsy-index guard drops the match and extraction
yields no nodes at all. -/
theorem c4_counterexample : findComments c4doc = [] := rfl

/-- Claim C4, amended: with a filler first line (so the match has a nonzero
offset), extraction of `x\n> [!comment] A\n> x\n>> [!comment] B\n>> y\n`
yields exactly one top-level node named `A` whose content `x\n` is truncated
before the nested marker, with exactly one child named `B` whose content is
`y\n` (the join of the stripped body lines keeps the trailing newline), and
the child's contentPos equals the parent's contentPos. -/
theorem c4_amended :
    findComments c4docPre =
      [Comment.mk ("A".toList) ("x\n".toList) ⟨2, 0⟩ ⟨6, 0⟩ ⟨6, 0⟩
        [Comment.mk ("B".toList) ("y\n".toList) ⟨4, 0⟩ ⟨6, 0⟩ ⟨6, 0⟩ [] none false]
        none false] := rfl

/-- Claim C5 is false as stated: in `c5doc` the comment block sits at the
end of the document with no trailing newline; its body is still fully
captured (content `y`), but the match then contains one newline fewer, so
`endPos.line` is 3 — the index of the block's LAST line (the document has 3
lines and the block spans lines 2-3) — not the line 4 immediately following
the block. -/
theorem c5_counterexample :
    (splitNl c5doc).length = 3 ∧
    (findComments c5doc).map (fun c => (c.content, c.endPos.line)) =
      [("y".toList, 3)] :=
  ⟨rfl, rfl⟩

/-- Claim C6: the comment-marker pattern does match `c6doc` (at offset 0),
yet extraction returns no nodes, because `if (!match.index) continue`
treats the offset-0 match as lacking an index. This exhibits the failing
input of the code bug: the source's own comment says this branch
"shouldn't happen", but it fires for every document that begins with a
comment. -/
theorem c6_code_bug_eval :
    (tryMatch c6doc).isSome = true ∧ findComments c6doc = [] :=
  ⟨rfl, rfl⟩

/-- Claim C7 is false as stated: `c7doc` holds two comments with the same
(name, content). Removing the first one (`c7c0`, extracted from the
document, as the first conjunct shows) leaves the other, so re-extraction
still yields a node whose (name, content) equals the removed node's. -/
theorem c7_counterexample :
    findComments c7doc = [c7c0, c7c1] ∧
    (findComments (removeComment c7doc c7c0)).map (fun c => (c.name, c.content)) =
      [(c7c0.name, c7c0.content)] :=
  ⟨rfl, rfl⟩

/-- Claim C9 is false as stated: in `c9doc` the nested comment ends exactly
where its parent ends, so the child's `endPos.line` equals the parent's
`endPos.line` (both 6) and therefore does not lie inside the parent's
half-open range `[startPos.line, endPos.line)`. -/
theorem c9_counterexample :
    (findComments c9doc).map
        (fun c => (c.endPos.line, c.children.map (fun d => d.endPos.line))) =
      [(6, [6])] ∧ ¬ (6 < 6) :=
  ⟨rfl, by decide⟩

theorem scanF_zero (cs : List Char) (idx nl off : Nat) (inh : Option EPos) :
    scanF 0 cs idx nl off inh = [] := rfl

theorem scanF_succ (f : Nat) (cs : List Char) (idx nl off : Nat) (inh : Option EPos) :
    scanF (f + 1) cs idx nl off inh =
      match tryMatch cs with
      | some m =>
        if idx = 0 then
          scanF f m.rest (idx + m.len) (nl + m.nl) off inh
        else
          let content0 := contentOf m.body
          let startP : EPos := ⟨jsL nl + off, 0⟩
          let endP : EPos := ⟨jsL (nl + m.nl) + off, 0⟩
          let cP : EPos := cPosOf inh endP.line
          Comment.mk (nameTs (jsTrim m.nameRaw)).1 (truncGt content0) startP endP cP
              (scanF f content0 0 0 startP.line (some cP)) (nameTs (jsTrim m.nameRaw)).2 false ::
            scanF f m.rest (idx + m.len) (nl + m.nl) off inh
      | none =>
        match cs with
        | [] => []
        | c :: t => scanF f t (idx + 1) (nl + (if c == '\n' then 1 else 0)) off inh := rfl

theorem scanF_nil (f : Nat) (idx nl off : Nat) (inh : Option EPos) :
    scanF f [] idx nl off inh = [] := by
  cases f <;> rfl

theorem scanF_advance (f : Nat) (c : Char) (t : List Char) (idx nl off : Nat)
    (inh : Option EPos) (h : tryMatch (c :: t) = none) :
    scanF (f + 1) (c :: t) idx nl off inh
      = scanF f t (idx + 1) (nl + (if c == '\n' then 1 else 0)) off inh := by
  rw [scanF_succ, h]

theorem scanF_skip (f : Nat) (cs : List Char) (nl off : Nat) (inh : Option EPos)
    (m : MRes) (h : tryMatch cs = some m) :
    scanF (f + 1) cs 0 nl off inh = scanF f m.rest (0 + m.len) (nl + m.nl) off inh := by
  rw [scanF_succ, h]
  simp

theorem scanF_emit (f : Nat) (cs : List Char) (idx nl off : Nat) (inh : Option EPos)
    (m : MRes) (h : tryMatch cs = some m) (h0 : idx ≠ 0) :
    scanF (f + 1) cs idx nl off inh =
      Comment.mk (nameTs (jsTrim m.nameRaw)).1 (truncGt (contentOf m.body))
          ⟨jsL nl + off, 0⟩ ⟨jsL (nl + m.nl) + off, 0⟩
          (cPosOf inh (jsL (nl + m.nl) + off))
          (scanF f (contentOf m.body) 0 0 (jsL nl + off)
            (some (cPosOf inh (jsL (nl + m.nl) + off))))
          (nameTs (jsTrim m.nameRaw)).2 false ::
        scanF f m.rest (idx + m.len) (nl + m.nl) off inh := by
  rw [scanF_succ, h]
  simp [h0]

theorem idxOfGt_eq_none : ∀ cs : List Char, idxOfGt cs = none ↔ '>' ∉ cs := by
  intro cs
  induction cs with
  | nil => simp [idxOfGt]
  | cons c t ih =>
    by_cases h : c = '>'
    · subst h; simp [idxOfGt]
    · simp [idxOfGt, h, Option.map_eq_none', ih]
      intro _; exact fun e => h e.symm

theorem idxOfGt_take : ∀ (cs : List Char) (i : Nat), idxOfGt cs = some i → '>' ∉ cs.take i := by
  intro cs
  induction cs with
  | nil => intro i h; simp [idxOfGt] at h
  | cons c t ih =>
    intro i h
    by_cases hc : c = '>'
    · subst hc
      simp [idxOfGt] at h
      subst h
      simp
    · simp [idxOfGt, hc] at h
      obtain ⟨j, hj, rfl⟩ := h
      simp [List.take_succ_cons]
      exact ⟨fun e => hc e.symm, ih j hj⟩

theorem truncGt_gtFree (s : List Char) : '>' ∉ truncGt s := by
  unfold truncGt
  cases hgt : idxOfGt s with
  | none => exact (idxOfGt_eq_none _).1 hgt
  | some i => exact idxOfGt_take _ i hgt

theorem scanF_gtFree : ∀ f cs idx nl off inh c, c ∈ scanF f cs idx nl off inh → GtFree c := by
  intro f
  induction f with
  | zero => intro cs idx nl off inh c hc; rw [scanF_zero] at hc; cases hc
  | succ f ih =>
    intro cs idx nl off inh c hc
    rw [scanF_succ] at hc
    cases htm : tryMatch cs with
    | none =>
      rw [htm] at hc
      cases cs with
      | nil => cases hc
      | cons c0 t => exact ih _ _ _ _ _ _ hc
    | some m =>
      rw [htm] at hc
      by_cases hidx : idx = 0
      · simp only [hidx, if_true] at hc
        exact ih _ _ _ _ _ _ hc
      · simp only [if_neg hidx] at hc
        simp only [List.mem_cons] at hc
        rcases hc with rfl | hc
        · exact GtFree.mk _ _ _ _ _ _ _ _ (truncGt_gtFree _) (fun d hd => ih _ _ _ _ _ _ hd)
        · exact ih _ _ _ _ _ _ hc

/-- Claim C10: content truncation keys off the first `>` character anywhere
in the stripped body, not specifically off a nested comment header. The
first conjunct: no extracted node, at any depth, retains a `>` in its
stored content (everything from the first `>` on is cut). The second: a
body line `a > b` with no nested comment at all still has its content cut
at the `>`, yielding `a `. -/
theorem c10_truncation :
    (∀ text c, c ∈ findComments text → GtFree c) ∧
    findComments c10doc =
      [Comment.mk ("A".toList) ("a ".toList) ⟨2, 0⟩ ⟨4, 0⟩ ⟨4, 0⟩ [] none false] :=
  ⟨fun _ c hc => scanF_gtFree _ _ _ _ _ _ c hc, rfl⟩

/-- Witness for C10 at a concrete input: the node extracted from `c10doc`
is hereditarily `>`-free. -/
theorem c10_truncation_witness :
    GtFree (Comment.mk ("A".toList) ("a ".toList) ⟨2, 0⟩ ⟨4, 0⟩ ⟨4, 0⟩ [] none false) :=
  c10_truncation.1 c10doc _
    (by rw [c10_truncation.2]; exact List.mem_singleton.mpr rfl)

theorem AllCP.contentPos_eq {p : EPos} {c : Comment} (h : AllCP p c) : c.contentPos = p := by
  cases h; rfl

theorem scanF_allCP : ∀ f cs idx nl off inh c, c ∈ scanF f cs idx nl off inh →
    AllCP (cPosOf inh c.endPos.line) c := by
  intro f
  induction f with
  | zero => intro cs idx nl off inh c hc; rw [scanF_zero] at hc; cases hc
  | succ f ih =>
    intro cs idx nl off inh c hc
    rw [scanF_succ] at hc
    cases htm : tryMatch cs with
    | none =>
      rw [htm] at hc
      cases cs with
      | nil => cases hc
      | cons c0 t => exact ih _ _ _ _ _ _ hc
    | some m =>
      rw [htm] at hc
      by_cases hidx : idx = 0
      · simp only [hidx, if_true] at hc
        exact ih _ _ _ _ _ _ hc
      · simp only [if_neg hidx] at hc
        simp only [List.mem_cons] at hc
        rcases hc with rfl | hc
        · exact AllCP.mk _ _ _ _ _ _ _
            (fun d hd => by
              have := ih _ _ _ _ _ _ hd
              rwa [cPosOf] at this)
        · exact ih _ _ _ _ _ _ hc

/-- Claim C8: contentPos is identical for a node and every node in its
children subtree. In a top-level call (no inherited position) each
extracted comment's contentPos is the position built from its own endPos
line (source line 413), and the whole subtree below it shares that
position; in every nested call (inherited position `p`) every discovered
comment, hereditarily, carries `p` instead of computing its own. -/
theorem c8_contentpos :
    (∀ text c, c ∈ findComments text →
      c.contentPos = ⟨c.endPos.line, 0⟩ ∧ AllCP c.contentPos c) ∧
    (∀ f cs idx nl off p c, c ∈ scanF f cs idx nl off (some p) → AllCP p c) := by
  constructor
  · intro text c hc
    have h := scanF_allCP _ _ _ _ _ _ c hc
    rw [cPosOf] at h
    exact ⟨h.contentPos_eq, by rw [h.contentPos_eq]; exact h⟩
  · intro f cs idx nl off p c hc
    have h := scanF_allCP _ _ _ _ _ _ c hc
    rwa [cPosOf] at h

/-- Witness for C8 at a concrete input: the nested tree extracted from
`c9doc` shares one contentPos throughout. -/
theorem c8_contentpos_witness :
    c8nodeA.contentPos = ⟨c8nodeA.endPos.line, 0⟩ ∧ AllCP c8nodeA.contentPos c8nodeA :=
  c8_contentpos.1 c9doc c8nodeA
    (by rw [show findComments c9doc = [c8nodeA] from rfl]
        exact List.mem_singleton.mpr rfl)

theorem withHidden_name (c : Comment) (b : Bool) : (c.withHidden b).name = c.name := by
  cases c; rfl

theorem tripleOf_withHidden (c : Comment) (b : Bool) : tripleOf (c.withHidden b) = tripleOf c := by
  cases c; rfl

theorem withHidden_self (c : Comment) : c.withHidden c.childrenHidden = c := by
  cases c; rfl

theorem withHidden_absorb (c : Comment) (a b : Bool) :
    (c.withHidden a).withHidden b = c.withHidden b := by
  cases c; rfl

theorem withHidden_hidden (c : Comment) (b : Bool) : (c.withHidden b).childrenHidden = b := by
  cases c; rfl

theorem tripleEq_true_iff (p n : Comment) : tripleEq p n = true ↔ tripleOf p = tripleOf n := by
  simp only [tripleEq, tripleOf, Bool.and_eq_true, beq_iff_eq, Prod.mk.injEq]
  tauto

theorem setHiddenAt_length : ∀ (l : List Comment) (i : Nat) (b : Bool),
    (setHiddenAt l i b).length = l.length := by
  intro l
  induction l with
  | nil => intro i b; rfl
  | cons c t ih =>
    intro i b
    cases i with
    | zero => rfl
    | succ i => simp [setHiddenAt, ih]

theorem setHiddenAt_getD_ne : ∀ (l : List Comment) (i : Nat) (b : Bool) (j : Nat), j ≠ i →
    (setHiddenAt l i b).getD j cNil = l.getD j cNil := by
  intro l
  induction l with
  | nil => intro i b j _; rfl
  | cons c t ih =>
    intro i b j hj
    cases i with
    | zero =>
      cases j with
      | zero => exact absurd rfl hj
      | succ j => rfl
    | succ i =>
      cases j with
      | zero => rfl
      | succ j => simpa [setHiddenAt] using ih i b j (fun e => hj (by rw [e]))

theorem setHiddenAt_getD_eq : ∀ (l : List Comment) (i : Nat) (b : Bool), i < l.length →
    (setHiddenAt l i b).getD i cNil = (l.getD i cNil).withHidden b := by
  intro l
  induction l with
  | nil => intro i b h; cases h
  | cons c t ih =>
    intro i b h
    cases i with
    | zero => rfl
    | succ i => simpa [setHiddenAt] using ih i b (by simpa using h)

theorem setHiddenAt_triples : ∀ (l : List Comment) (i : Nat) (b : Bool) (j : Nat),
    tripleOf ((setHiddenAt l i b).getD j cNil) = tripleOf (l.getD j cNil) := by
  intro l i b j
  by_cases hj : j = i
  · subst hj
    by_cases hi : j < l.length
    · rw [setHiddenAt_getD_eq _ _ _ hi, tripleOf_withHidden]
    · rw [List.getD_eq_default, List.getD_eq_default]
      · omega
      · rw [setHiddenAt_length]; omega
  · rw [setHiddenAt_getD_ne _ _ _ _ hj]

theorem findIdxB_bound : ∀ (p : Comment → Bool) (l : List Comment) (i : Nat),
    findIdxB p l = some i → i < l.length ∧ p (l.getD i cNil) = true := by
  intro p l
  induction l with
  | nil => intro i h; cases h
  | cons c t ih =>
    intro i h
    by_cases hc : p c = true
    · simp [findIdxB, hc] at h
      subst h
      exact ⟨by simp, hc⟩
    · simp [findIdxB, hc] at h
      obtain ⟨j, hj, rfl⟩ := h
      obtain ⟨h1, h2⟩ := ih j hj
      exact ⟨by simpa using h1, h2⟩

theorem findIdxB_first : ∀ (p : Comment → Bool) (l : List Comment) (k : Nat),
    k < l.length → p (l.getD k cNil) = true →
    (∀ j, j < k → p (l.getD j cNil) = false) → findIdxB p l = some k := by
  intro p l
  induction l with
  | nil => intro k h; cases h
  | cons c t ih =>
    intro k hk hpk hprev
    cases k with
    | zero => simp [findIdxB, hpk.symm ▸ hpk]; simpa using hpk
    | succ k =>
      have hc : p c = false := hprev 0 (Nat.succ_pos k)
      simp [findIdxB, hc]
      exact ih k (by simpa using hk) hpk (fun j hj => hprev (j + 1) (by omega))

theorem applyPrev_length (acc : List Comment) (p : Comment) :
    (applyPrev acc p).length = acc.length := by
  unfold applyPrev
  cases h : findIdxB (fun n => tripleEq p n) acc with
  | none => rfl
  | some i => exact setHiddenAt_length _ _ _

theorem applyPrev_triples (acc : List Comment) (p : Comment) (j : Nat) :
    tripleOf ((applyPrev acc p).getD j cNil) = tripleOf (acc.getD j cNil) := by
  unfold applyPrev
  cases h : findIdxB (fun n => tripleEq p n) acc with
  | none => rfl
  | some i => exact setHiddenAt_triples _ _ _ _

/-- If `p`'s triple differs from the one at `k`, running `p` over the list
leaves position `k` untouched. -/
theorem applyPrev_ne (acc : List Comment) (p : Comment) (k : Nat)
    (h : tripleOf p ≠ tripleOf (acc.getD k cNil)) :
    (applyPrev acc p).getD k cNil = acc.getD k cNil := by
  unfold applyPrev
  cases hf : findIdxB (fun n => tripleEq p n) acc with
  | none => rfl
  | some i =>
    obtain ⟨hi, hpi⟩ := findIdxB_bound _ _ _ hf
    by_cases hik : i = k
    · subst hik
      exact absurd ((tripleEq_true_iff _ _).1 hpi) h
    · exact setHiddenAt_getD_ne _ _ _ _ (fun e => hik e.symm)

/-- If `p`'s triple equals the one at `k` and no other position shares that
triple, running `p` sets exactly position `k`. -/
theorem applyPrev_eq (acc : List Comment) (p : Comment) (k : Nat) (hk : k < acc.length)
    (h : tripleOf p = tripleOf (acc.getD k cNil))
    (uq : ∀ j, j < acc.length → j ≠ k →
      tripleOf (acc.getD j cNil) ≠ tripleOf (acc.getD k cNil)) :
    (applyPrev acc p).getD k cNil = (acc.getD k cNil).withHidden p.childrenHidden := by
  unfold applyPrev
  have hfk : findIdxB (fun n => tripleEq p n) acc = some k := by
    apply findIdxB_first _ _ _ hk ((tripleEq_true_iff _ _).2 h)
    intro j hj
    have hne := uq j (by omega) (by omega)
    rcases Bool.eq_false_or_eq_true (tripleEq p (acc.getD j cNil)) with hb | hb
    · exact absurd (h ▸ (tripleEq_true_iff _ _).1 hb) (fun e => hne e.symm)
    · exact hb
  rw [hfk]
  exact setHiddenAt_getD_eq _ _ _ hk

theorem reconcile_cons (p : Comment) (rest acc : List Comment) :
    reconcile (p :: rest) acc = reconcile rest (applyPrev acc p) := rfl

theorem lastMatch_cons (t : List Char × List Char × Nat) (p : Comment)
    (rest : List Comment) (b : Bool) :
    lastMatch t (p :: rest) b =
      lastMatch t rest (if tripleOf p = t then p.childrenHidden else b) := rfl

theorem reconcile_lastMatch : ∀ (prev acc : List Comment) (k : Nat), k < acc.length →
    (∀ j, j < acc.length → j ≠ k →
      tripleOf (acc.getD j cNil) ≠ tripleOf (acc.getD k cNil)) →
    (reconcile prev acc).getD k cNil =
      (acc.getD k cNil).withHidden
        (lastMatch (tripleOf (acc.getD k cNil)) prev (acc.getD k cNil).childrenHidden) := by
  intro prev
  induction prev with
  | nil => intro acc k hk uq; exact (withHidden_self _).symm
  | cons p rest ih =>
    intro acc k hk uq
    rw [reconcile_cons]
    have hlen : (applyPrev acc p).length = acc.length := applyPrev_length acc p
    have htr : ∀ j, tripleOf ((applyPrev acc p).getD j cNil) = tripleOf (acc.getD j cNil) :=
      fun j => applyPrev_triples acc p j
    have uq' : ∀ j, j < (applyPrev acc p).length → j ≠ k →
        tripleOf ((applyPrev acc p).getD j cNil) ≠
          tripleOf ((applyPrev acc p).getD k cNil) := by
      intro j hj hjk
      rw [htr j, htr k]
      exact uq j (by omega) hjk
    by_cases hm : tripleOf p = tripleOf (acc.getD k cNil)
    · have hset := applyPrev_eq acc p k hk hm uq
      have hrec := ih (applyPrev acc p) k (by omega) uq'
      rw [hset] at hrec
      rw [hrec, tripleOf_withHidden, withHidden_hidden, withHidden_absorb]
      congr 1
      rw [lastMatch_cons, if_pos hm]
    · have hset := applyPrev_ne acc p k hm
      have hrec := ih (applyPrev acc p) k (by omega) uq'
      rw [hset] at hrec
      rw [hrec]
      congr 1
      rw [lastMatch_cons, if_neg hm]

theorem reconcile_untouched : ∀ (prev acc : List Comment) (k : Nat),
    (∀ p ∈ prev, tripleOf p ≠ tripleOf (acc.getD k cNil)) →
    (reconcile prev acc).getD k cNil = acc.getD k cNil := by
  intro prev
  induction prev with
  | nil => intro acc k _; rfl
  | cons p rest ih =>
    intro acc k h
    rw [reconcile_cons]
    have hp := h p (List.mem_cons_self _ _)
    have hset := applyPrev_ne acc p k hp
    have h2 : ∀ q ∈ rest, tripleOf q ≠ tripleOf ((applyPrev acc p).getD k cNil) := by
      intro q hq
      rw [hset]
      exact h q (List.mem_cons_of_mem _ hq)
    rw [ih (applyPrev acc p) k h2, hset]

theorem lastMatch_nomatch : ∀ (l : List Comment) (t : List Char × List Char × Nat) (b : Bool),
    (∀ i, i < l.length → tripleOf (l.getD i cNil) ≠ t) → lastMatch t l b = b := by
  intro l
  induction l with
  | nil => intro t b _; rfl
  | cons p rest ih =>
    intro t b h
    have h0 : tripleOf p ≠ t := by simpa using h 0 (by simp)
    rw [lastMatch_cons, if_neg h0]
    exact ih t b (fun i hi => by simpa using h (i + 1) (by simpa using Nat.succ_lt_succ hi))

theorem lastMatch_pos : ∀ (l : List Comment) (j : Nat) (t : List Char × List Char × Nat)
    (b : Bool), j < l.length →
    tripleOf (l.getD j cNil) = t →
    (∀ i, i < l.length → i ≠ j → tripleOf (l.getD i cNil) ≠ t) →
    lastMatch t l b = (l.getD j cNil).childrenHidden := by
  intro l
  induction l with
  | nil => intro j t b h; cases h
  | cons p rest ih =>
    intro j t b hj hmatch huq
    cases j with
    | zero =>
      simp only [List.getD_cons_zero] at hmatch ⊢
      rw [lastMatch_cons, if_pos hmatch]
      exact lastMatch_nomatch rest t _ (fun i hi => by
        simpa using huq (i + 1) (by simpa using Nat.succ_lt_succ hi) (by omega))
    | succ j =>
      have h0 : tripleOf p ≠ t := by simpa using huq 0 (by simp) (by omega)
      rw [lastMatch_cons, if_neg h0]
      simp only [List.getD_cons_succ]
      exact ih j t b (by simpa using hj) (by simpa using hmatch)
        (fun i hi hij => by
          simpa using huq (i + 1) (by simpa using Nat.succ_lt_succ hi) (by omega))

theorem scanF_hidden_false : ∀ f cs idx nl off inh c, c ∈ scanF f cs idx nl off inh →
    c.childrenHidden = false := by
  intro f
  induction f with
  | zero => intro cs idx nl off inh c hc; rw [scanF_zero] at hc; cases hc
  | succ f ih =>
    intro cs idx nl off inh c hc
    rw [scanF_succ] at hc
    cases htm : tryMatch cs with
    | none =>
      rw [htm] at hc
      cases cs with
      | nil => cases hc
      | cons c0 t => exact ih _ _ _ _ _ _ hc
    | some m =>
      rw [htm] at hc
      by_cases hidx : idx = 0
      · simp only [hidx, if_true] at hc
        exact ih _ _ _ _ _ _ hc
      · simp only [if_neg hidx] at hc
        simp only [List.mem_cons] at hc
        rcases hc with rfl | hc
        · rfl
        · exact ih _ _ _ _ _ _ hc

/-- Claim C2, amended: (a) with no previous tree stored for the document the
fresh list is returned unchanged; (b) collapsing a top-level node whose
(name, content, children.length) triple is unique among its siblings,
re-parsing identical text and reconciling leaves that node collapsed;
(c) when no previous node's triple matches a fresh node (e.g. after a
content-changing edit to that node's body), reconciliation leaves the fresh
node untouched; (d) freshly extracted nodes carry the default
childrenHidden = false, so an untouched node is in the default state. -/
theorem c2_amended :
    (∀ fresh, setComments none fresh = fresh) ∧
    (∀ base k, k < base.length →
      (∀ j, j < base.length → j ≠ k →
        tripleOf (base.getD j cNil) ≠ tripleOf (base.getD k cNil)) →
      (setComments (some (setHiddenAt base k true)) base).getD k cNil
        = (base.getD k cNil).withHidden true) ∧
    (∀ prev fresh k,
      (∀ p ∈ prev, tripleOf p ≠ tripleOf (fresh.getD k cNil)) →
      (setComments (some prev) fresh).getD k cNil = fresh.getD k cNil) ∧
    (∀ text c, c ∈ findComments text → c.childrenHidden = false) := by
  refine ⟨fun _ => rfl, ?_, ?_, ?_⟩
  · intro base k hk uq
    have hprevk : (setHiddenAt base k true).getD k cNil = (base.getD k cNil).withHidden true :=
      setHiddenAt_getD_eq base k true hk
    have hrec := reconcile_lastMatch (setHiddenAt base k true) base k hk uq
    have hlen : (setHiddenAt base k true).length = base.length := setHiddenAt_length _ _ _
    have hlm := lastMatch_pos (setHiddenAt base k true) k (tripleOf (base.getD k cNil))
      (base.getD k cNil).childrenHidden (by omega)
      (by rw [hprevk, tripleOf_withHidden])
      (fun i hi hik => by
        rw [setHiddenAt_triples]
        exact uq i (by omega) hik)
    rw [hprevk, withHidden_hidden] at hlm
    show (reconcile (setHiddenAt base k true) base).getD k cNil
      = (base.getD k cNil).withHidden true
    rw [hrec, hlm]
  · intro prev fresh k h
    exact reconcile_untouched prev fresh k h
  · exact fun text c hc => scanF_hidden_false _ _ _ _ _ _ c hc

/-- Witness for C2 at a concrete input: the two comments extracted from the
witness document have distinct triples; collapsing the second and
reconciling against the identical re-parse keeps it collapsed. -/
theorem c2_amended_witness :
    (setComments (some (setHiddenAt c2base 1 true)) c2base).getD 1 cNil
      = (c2base.getD 1 cNil).withHidden true :=
  c2_amended.2.1 c2base 1 (by decide) (by decide)

theorem countNl_append : ∀ a b : List Char, countNl (a ++ b) = countNl a + countNl b := by
  intro a b
  induction a with
  | nil => simp [countNl]
  | cons c t ih => simp [countNl, ih]; omega

theorem countNl_eq_zero : ∀ s : List Char, (∀ c ∈ s, c ≠ '\n') → countNl s = 0 := by
  intro s h
  induction s with
  | nil => rfl
  | cons c t ih =>
    have hc : c ≠ '\n' := h c (List.mem_cons_self _ _)
    simp [countNl, hc]
    exact ih (fun x hx => h x (List.mem_cons_of_mem _ hx))

theorem bodyRun_dot {c : Char} (h : jsDot c = true) (t : List Char) :
    bodyRun (c :: t) = (c :: (bodyRun t).1, (bodyRun t).2) := by
  simp [bodyRun, h]

theorem bodyRun_nl_gt (t : List Char) :
    bodyRun ('\n' :: '>' :: t) =
      ('\n' :: (bodyRun ('>' :: t)).1, (bodyRun ('>' :: t)).2) := rfl

theorem bodyRun_nl_stop (t : List Char) (h : t.head? ≠ some '>') :
    bodyRun ('\n' :: t) = (['\n'], t) := by
  cases t with
  | nil => rfl
  | cons c1 t1 =>
    have hc1 : c1 ≠ '>' := by
      intro e; exact h (by rw [e]; rfl)
    simp only [bodyRun]
    norm_num [jsDot]
    split
    · next heq =>
      rw [List.cons.injEq] at heq
      exact absurd heq.1 hc1
    · rfl

theorem bodyRun_other {c : Char} (h1 : jsDot c = false) (h2 : c ≠ '\n') (t : List Char) :
    bodyRun (c :: t) = ([], c :: t) := by
  simp [bodyRun, h1, h2]

theorem bodyRun_append : ∀ cs : List Char, (bodyRun cs).1 ++ (bodyRun cs).2 = cs := by
  intro cs
  induction cs with
  | nil => rfl
  | cons c t ih =>
    by_cases hd : jsDot c = true
    · rw [bodyRun_dot hd]
      simpa using ih
    · by_cases hn : c = '\n'
      · subst hn
        cases hh : t.head? with
        | none =>
          cases t with
          | nil => rfl
          | cons c1 t1 => cases hh
        | some c1 =>
          by_cases hgt : c1 = '>'
          · subst hgt
            cases t with
            | nil => cases hh
            | cons c2 t2 =>
              have : c2 = '>' := by simpa using hh
              subst this
              rw [bodyRun_nl_gt]
              simpa using ih
          · rw [bodyRun_nl_stop t (by rw [hh]; simp [hgt])]
            rfl
      · rw [bodyRun_other (by simpa using hd) hn]
        rfl

theorem stripPfxCI_countNl : ∀ (p cs s : List Char),
    (∀ pc ∈ p, charCI pc '\n' = false) → stripPfxCI p cs = some s →
    countNl cs = countNl s := by
  intro p
  induction p with
  | nil => intro cs s _ h; cases cs <;> (simp [stripPfxCI] at h; subst h; rfl)
  | cons pc ps ih =>
    intro cs s hp h
    cases cs with
    | nil => cases h
    | cons c cs1 =>
      simp only [stripPfxCI] at h
      by_cases hci : charCI pc c = true
      · rw [if_pos hci] at h
        have hcn : c ≠ '\n' := by
          intro e; subst e
          exact absurd hci (by simpa using hp pc (List.mem_cons_self _ _))
        simp [countNl, hcn]
        exact ih cs1 s (fun q hq => hp q (List.mem_cons_of_mem _ hq)) h
      · rw [if_neg hci] at h; cases h

theorem hdrPat_no_nl : ∀ pc ∈ hdrPat, charCI pc '\n' = false := by decide

theorem mem_takeWhile_jsDot : ∀ (s : List Char) (c : Char),
    c ∈ s.takeWhile jsDot → jsDot c = true := by
  intro s c h
  induction s with
  | nil => cases h
  | cons x t ih =>
    by_cases hx : jsDot x = true
    · rw [List.takeWhile_cons_of_pos hx] at h
      rcases List.mem_cons.1 h with rfl | h2
      · exact hx
      · exact ih h2
    · rw [List.takeWhile_cons_of_neg (by simpa using hx)] at h
      cases h

theorem jsDot_ne_nl {c : Char} (h : jsDot c = true) : c ≠ '\n' := by
  intro e; subst e; simp [jsDot] at h

/-- Newline accounting of a successful match: `match[0]` holds `m.nl`
newlines (one for the header, `countNl m.body` in the body) and the rest of
the text holds the remainder. -/
theorem tryMatch_facts : ∀ (cs : List Char) (m : MRes), tryMatch cs = some m →
    countNl cs = m.nl + countNl m.rest ∧ m.nl = 1 + countNl m.body := by
  intro cs m h
  unfold tryMatch at h
  split at h
  · cases h
  · rename_i s1 hsp
    split at h
    · cases h
    · rename_i nm s2 htw hdw
      split at h
      · rename_i e0 tail hs2
        split at h
        rename_i b r hbr
        cases h
        refine ⟨?_, rfl⟩
        have hs1 : countNl cs = countNl s1 := stripPfxCI_countNl _ _ _ hdrPat_no_nl hsp
        have hsplit : List.takeWhile jsDot s1 ++ List.dropWhile jsDot s1 = s1 :=
          List.takeWhile_append_dropWhile jsDot s1
        have h0 : countNl (s1.takeWhile jsDot) = 0 :=
          countNl_eq_zero _ (fun c hc => jsDot_ne_nl (mem_takeWhile_jsDot _ _ hc))
        have hb : b ++ r = '>' :: hs2 := by
          have hba := bodyRun_append ('>' :: hs2)
          rw [hbr] at hba
          simpa using hba
        have hcat : countNl s1 = countNl (s1.takeWhile jsDot) + countNl (s1.dropWhile jsDot) := by
          rw [← countNl_append, hsplit]
        have h2 : countNl ('>' :: hs2) = countNl b + countNl r := by
          rw [← hb, countNl_append]
        rw [hs1, hcat, h0, htw]
        simp only [countNl] at h2 ⊢
        simp at h2 ⊢
        omega
      · cases h
    · cases h

theorem splitNl_ne_nil : ∀ s : List Char, splitNl s ≠ [] := by
  intro s
  cases s with
  | nil => simp [splitNl]
  | cons c t =>
    simp only [splitNl]
    by_cases h : c = '\n'
    · simp [h]
    · simp [h]
      cases hs : splitNl t <;> simp

theorem splitNl_no_nl : ∀ (s : List Char) (l : List Char), l ∈ splitNl s → '\n' ∉ l := by
  intro s
  induction s with
  | nil =>
    intro l hl
    simp [splitNl] at hl
    simp [hl]
  | cons c t ih =>
    intro l hl
    simp only [splitNl] at hl
    by_cases h : c = '\n'
    · simp [h] at hl
      rcases hl with rfl | hl
      · simp
      · exact ih l hl
    · simp [h] at hl
      cases hs : splitNl t with
      | nil => exact absurd hs (splitNl_ne_nil t)
      | cons l0 ls =>
        rw [hs] at hl
        rcases List.mem_cons.1 hl with rfl | hl2
        · intro hmem
          rcases List.mem_cons.1 hmem with rfl | hmem2
          · exact h rfl
          · exact ih l0 (hs ▸ List.mem_cons_self _ _) hmem2
        · exact ih l (hs ▸ List.mem_cons_of_mem _ hl2)

theorem splitNl_length : ∀ s : List Char, (splitNl s).length = countNl s + 1 := by
  intro s
  induction s with
  | nil => rfl
  | cons c t ih =>
    simp only [splitNl, countNl]
    by_cases h : c = '\n'
    · simp [h, ih]; omega
    · simp [h]
      cases hs : splitNl t with
      | nil => exact absurd hs (splitNl_ne_nil t)
      | cons l0 ls =>
        rw [hs] at ih
        simpa using ih

theorem joinNl_countNl : ∀ ls : List (List Char), (∀ l ∈ ls, '\n' ∉ l) →
    countNl (joinNl ls) = ls.length - 1 := by
  intro ls
  induction ls with
  | nil => intro _; rfl
  | cons l rest ih =>
    intro h
    cases rest with
    | nil =>
      show countNl l = 0
      exact countNl_eq_zero l (fun c hc => fun e => (h l (List.mem_cons_self _ _)) (e ▸ hc))
    | cons l2 rest2 =>
      show countNl (l ++ '\n' :: joinNl (l2 :: rest2)) = (l2 :: rest2).length
      rw [countNl_append]
      have h0 : countNl l = 0 :=
        countNl_eq_zero l (fun c hc => fun e => (h l (List.mem_cons_self _ _)) (e ▸ hc))
      have := ih (fun q hq => h q (List.mem_cons_of_mem _ hq))
      simp only [countNl] at this ⊢
      simp at this ⊢
      omega

theorem mem_of_dropWhile : ∀ (p : Char → Bool) (l : List Char) (c : Char),
    c ∈ l.dropWhile p → c ∈ l := by
  intro p l
  induction l with
  | nil => intro c h; cases h
  | cons x t ih =>
    intro c h
    by_cases hx : p x = true
    · rw [List.dropWhile_cons_of_pos hx] at h
      exact List.mem_cons_of_mem _ (ih c h)
    · rw [List.dropWhile_cons_of_neg (by simpa using hx)] at h
      exact h

theorem mem_jsTrim : ∀ (l : List Char) (c : Char), c ∈ jsTrim l → c ∈ l := by
  intro l c h
  unfold jsTrim at h
  rw [List.mem_reverse] at h
  have h2 := mem_of_dropWhile _ _ _ h
  rw [List.mem_reverse] at h2
  exact mem_of_dropWhile _ _ _ h2

theorem mem_dropGt : ∀ (l : List Char) (c : Char), c ∈ dropGt l → c ∈ l := by
  intro l c h
  unfold dropGt at h
  split at h
  · exact List.mem_cons_of_mem _ h
  · exact h

theorem stripLine_no_nl {l : List Char} (h : '\n' ∉ l) : '\n' ∉ stripLine l := by
  intro hm
  exact h (mem_dropGt _ _ (mem_jsTrim _ _ hm))

theorem contentOf_countNl : ∀ b : List Char, countNl (contentOf b) = countNl b := by
  intro b
  unfold contentOf
  rw [joinNl_countNl]
  · rw [List.length_map, splitNl_length]; omega
  · intro l hl
    rw [List.mem_map] at hl
    obtain ⟨l0, hl0, rfl⟩ := hl
    exact stripLine_no_nl (splitNl_no_nl b l0 hl0)

theorem jsL_mono {a b : Nat} (h : a ≤ b) : jsL a ≤ jsL b := by
  unfold jsL; split_ifs <;> omega

theorem jsL_lt {a b : Nat} (h : a < b) : jsL a < jsL b := by
  unfold jsL; split_ifs <;> omega

theorem jsL_add (k n : Nat) : jsL k + jsL n ≤ jsL (n + 1 + k) := by
  unfold jsL; split_ifs <;> omega

theorem PosInv.start_lt {c : Comment} (h : PosInv c) :
    c.startPos.line < c.endPos.line := by
  cases h; assumption

theorem scanF_posInv : ∀ f cs idx nl off inh c, c ∈ scanF f cs idx nl off inh →
    PosInv c ∧ off ≤ c.startPos.line ∧
      c.endPos.line ≤ jsL (nl + countNl cs) + off := by
  intro f
  induction f with
  | zero => intro cs idx nl off inh c hc; rw [scanF_zero] at hc; cases hc
  | succ f ih =>
    intro cs idx nl off inh c hc
    rw [scanF_succ] at hc
    cases htm : tryMatch cs with
    | none =>
      rw [htm] at hc
      cases cs with
      | nil => cases hc
      | cons c0 t =>
        have h := ih _ _ _ _ _ _ hc
        refine ⟨h.1, h.2.1, ?_⟩
        have harith : nl + (if c0 == '\n' then 1 else 0) + countNl t = nl + countNl (c0 :: t) := by
          simp only [countNl]
          split <;> omega
        rw [← harith]
        exact h.2.2
    | some m =>
      obtain ⟨hcnt, hnl⟩ := tryMatch_facts cs m htm
      rw [htm] at hc
      by_cases hidx : idx = 0
      · simp only [hidx, if_true] at hc
        have h := ih _ _ _ _ _ _ hc
        refine ⟨h.1, h.2.1, ?_⟩
        have harith : nl + m.nl + countNl m.rest = nl + countNl cs := by omega
        rw [← harith]
        exact h.2.2
      · simp only [if_neg hidx] at hc
        simp only [List.mem_cons] at hc
        rcases hc with rfl | hc
        · have hcc : countNl (contentOf m.body) = countNl m.body := contentOf_countNl _
          have hbound : jsL (countNl m.body) + (jsL nl + off) ≤ jsL (nl + m.nl) + off := by
            have h1 := jsL_add (countNl m.body) nl
            have h2 : nl + 1 + countNl m.body = nl + m.nl := by omega
            rw [h2] at h1
            omega
          refine ⟨?_, ?_, ?_⟩
          · refine PosInv.mk _ _ _ _ _ _ _ _ ?_ ?_ ?_
            · show jsL nl + off < jsL (nl + m.nl) + off
              have := jsL_lt (a := nl) (b := nl + m.nl) (by omega)
              omega
            · intro d hd
              have hdih := ih _ _ _ _ _ _ hd
              rw [Nat.zero_add, hcc] at hdih
              have hdlt := hdih.1.start_lt
              refine ⟨hdih.2.1, ?_, ?_⟩
              · show d.startPos.line < jsL (nl + m.nl) + off
                have := hdih.2.2
                omega
              · show d.endPos.line ≤ jsL (nl + m.nl) + off
                have := hdih.2.2
                omega
            · intro d hd
              exact (ih _ _ _ _ _ _ hd).1
          · show off ≤ jsL nl + off
            omega
          · show jsL (nl + m.nl) + off ≤ jsL (nl + countNl cs) + off
            have := jsL_mono (a := nl + m.nl) (b := nl + countNl cs) (by omega)
            omega
        · have h := ih _ _ _ _ _ _ hc
          refine ⟨h.1, h.2.1, ?_⟩
          have harith : nl + m.nl + countNl m.rest = nl + countNl cs := by omega
          rw [← harith]
          exact h.2.2

/-- Claim C9, amended: every extracted tree satisfies
`startPos.line < endPos.line` at every node, and every child starts within
the parent's half-open line range while its end line is bounded by the
parent's end line (equality included, reached when the child block extends
to the end of the parent's body). -/
theorem c9_amended : ∀ text c, c ∈ findComments text → PosInv c :=
  fun _ c hc => (scanF_posInv _ _ _ _ _ _ c hc).1

/-- Witness for C9 at a concrete input. -/
theorem c9_amended_witness : PosInv c9nodeA :=
  c9_amended c9doc c9nodeA
    (by rw [show findComments c9doc = [c9nodeA] from rfl]
        exact List.mem_singleton.mpr rfl)

theorem charCI_gt_self : charCI '>' '>' = true := by decide

theorem ne_gt_of_safe {c : Char} (h : charCI '>' c = false) : c ≠ '>' := by
  intro e; subst e; exact absurd charCI_gt_self (by rw [h]; simp)

theorem tryMatch_not_gt {c : Char} (h : charCI '>' c = false) (t : List Char) :
    tryMatch (c :: t) = none := by
  unfold tryMatch
  have hs : stripPfxCI hdrPat (c :: t) = none := by
    rw [show hdrPat = '>' :: " [!comment] ".toList from rfl]
    simp [stripPfxCI, h]
  rw [hs]

theorem scanF_all_safe : ∀ f cs, (∀ c ∈ cs, charCI '>' c = false) →
    ∀ idx nl off inh, scanF f cs idx nl off inh = [] := by
  intro f
  induction f with
  | zero => intro cs _ idx nl off inh; rw [scanF_zero]
  | succ f ih =>
    intro cs hsafe idx nl off inh
    cases cs with
    | nil => rw [scanF_nil]
    | cons c t =>
      rw [scanF_advance f c t idx nl off inh
        (tryMatch_not_gt (hsafe c (List.mem_cons_self _ _)) t)]
      exact ih t (fun x hx => hsafe x (List.mem_cons_of_mem _ hx)) _ _ _ _

theorem scanF_safe_append : ∀ (safe : List Char), (∀ c ∈ safe, charCI '>' c = false) →
    ∀ f rest idx nl off inh,
    scanF (f + safe.length) (safe ++ rest) idx nl off inh
      = scanF f rest (idx + safe.length) (nl + countNl safe) off inh := by
  intro safe
  induction safe with
  | nil => intro _ f rest idx nl off inh; simp [countNl]
  | cons c t ih =>
    intro hsafe f rest idx nl off inh
    have e1 : f + (c :: t).length = (f + t.length) + 1 := by simp; omega
    rw [e1, List.cons_append,
      scanF_advance (f + t.length) c (t ++ rest) idx nl off inh
        (tryMatch_not_gt (hsafe c (List.mem_cons_self _ _)) _),
      ih (fun x hx => hsafe x (List.mem_cons_of_mem _ hx)) f rest (idx + 1) _ off inh]
    have e2 : idx + 1 + t.length = idx + (c :: t).length := by simp; omega
    have e3 : nl + (if c == '\n' then 1 else 0) + countNl t = nl + countNl (c :: t) := by
      simp only [countNl]; omega
    rw [e2, e3]

theorem renderBody_cons (l : List Char) (ls : List (List Char)) :
    renderBody (l :: ls) = '>' :: l ++ '\n' :: renderBody ls := by
  simp [renderBody]

theorem renderBodyEnd_cons (l : List Char) (l2 : List Char) (ls : List (List Char)) :
    renderBodyEnd (l :: l2 :: ls) = '>' :: l ++ '\n' :: renderBodyEnd (l2 :: ls) := by
  simp [renderBodyEnd, joinNl]

theorem bodyRun_line : ∀ (l : List Char), (∀ c ∈ l, jsDot c = true) → ∀ (r : List Char),
    bodyRun (l ++ '\n' :: r) =
      (if r.head? = some '>' then (l ++ '\n' :: (bodyRun r).1, (bodyRun r).2)
       else (l ++ ['\n'], r)) := by
  intro l
  induction l with
  | nil =>
    intro _ r
    by_cases hr : r.head? = some '>'
    · cases r with
      | nil => cases hr
      | cons c1 t1 =>
        have : c1 = '>' := by simpa using hr
        subst this
        simp [hr, bodyRun_nl_gt]
    · simp [hr, bodyRun_nl_stop r hr]
  | cons c t ih =>
    intro hdot r
    have hc : jsDot c = true := hdot c (List.mem_cons_self _ _)
    rw [List.cons_append, bodyRun_dot hc, ih (fun x hx => hdot x (List.mem_cons_of_mem _ hx)) r]
    by_cases hr : r.head? = some '>' <;> simp [hr]

theorem bodyRun_all_dot : ∀ (l : List Char), (∀ c ∈ l, jsDot c = true) →
    bodyRun l = (l, []) := by
  intro l
  induction l with
  | nil => intro _; rfl
  | cons c t ih =>
    intro hdot
    rw [bodyRun_dot (hdot c (List.mem_cons_self _ _)),
      ih (fun x hx => hdot x (List.mem_cons_of_mem _ hx))]

theorem goodLine_dot {l : List Char} (h : goodLine l) : ∀ c ∈ l, jsDot c = true :=
  fun c hc => (h c hc).2

theorem bodyRun_render : ∀ (bls : List (List Char)), bls ≠ [] →
    (∀ l ∈ bls, goodLine l) →
    ∀ (rest : List Char), rest.head? ≠ some '>' →
    bodyRun (renderBody bls ++ rest) = (renderBody bls, rest) := by
  intro bls
  induction bls with
  | nil => intro h; exact absurd rfl h
  | cons l ls ih =>
    intro _ hgood rest hrest
    have hl : ∀ c ∈ l, jsDot c = true := goodLine_dot (hgood l (List.mem_cons_self _ _))
    rw [renderBody_cons]
    have hassoc : ('>' :: l ++ '\n' :: renderBody ls) ++ rest
        = '>' :: (l ++ '\n' :: (renderBody ls ++ rest)) := by simp
    rw [hassoc, bodyRun_dot (by decide),
      bodyRun_line l hl (renderBody ls ++ rest)]
    cases ls with
    | nil =>
      have : renderBody [] = ([] : List Char) := rfl
      rw [this, List.nil_append, if_neg hrest]
      simp [renderBody]
    | cons l2 ls2 =>
      have hhead : (renderBody (l2 :: ls2) ++ rest).head? = some '>' := by
        rw [renderBody_cons]
        rfl
      rw [if_pos hhead,
        ih (by simp) (fun q hq => hgood q (List.mem_cons_of_mem _ hq)) rest hrest]
      simp [renderBody_cons]

theorem renderBodyEnd_head : ∀ (l : List Char) (ls : List (List Char)),
    (renderBodyEnd (l :: ls)).head? = some '>' := by
  intro l ls
  cases ls with
  | nil => rfl
  | cons l2 ls2 => rw [renderBodyEnd_cons]; rfl

theorem bodyRun_renderEnd : ∀ (bls : List (List Char)), bls ≠ [] →
    (∀ l ∈ bls, goodLine l) →
    bodyRun (renderBodyEnd bls) = (renderBodyEnd bls, []) := by
  intro bls
  induction bls with
  | nil => intro h; exact absurd rfl h
  | cons l ls ih =>
    intro _ hgood
    have hl : ∀ c ∈ l, jsDot c = true := goodLine_dot (hgood l (List.mem_cons_self _ _))
    cases ls with
    | nil =>
      show bodyRun ('>' :: l) = ('>' :: l, [])
      rw [bodyRun_dot (by decide), bodyRun_all_dot l hl]
    | cons l2 ls2 =>
      rw [renderBodyEnd_cons]
      have hassoc : ('>' :: l ++ '\n' :: renderBodyEnd (l2 :: ls2))
          = '>' :: (l ++ '\n' :: (renderBodyEnd (l2 :: ls2) ++ [])) := by simp
      rw [hassoc, bodyRun_dot (by decide),
        bodyRun_line l hl (renderBodyEnd (l2 :: ls2) ++ [])]
      have hhead : (renderBodyEnd (l2 :: ls2) ++ []).head? = some '>' := by
        rw [List.append_nil]
        exact renderBodyEnd_head l2 ls2
      rw [if_pos hhead, List.append_nil,
        ih (by simp) (fun q hq => hgood q (List.mem_cons_of_mem _ hq))]

theorem stripPfxCI_self : ∀ (p s : List Char), stripPfxCI p (p ++ s) = some s := by
  intro p
  induction p with
  | nil => intro s; rfl
  | cons c t ih =>
    intro s
    simp only [List.cons_append, stripPfxCI, charCI, beq_self_eq_true, if_true]
    exact ih s

theorem takeWhile_jsDot_append : ∀ (xs X : List Char), (∀ x ∈ xs, jsDot x = true) →
    List.takeWhile jsDot (xs ++ '\n' :: X) = xs ∧
    List.dropWhile jsDot (xs ++ '\n' :: X) = '\n' :: X := by
  intro xs X
  induction xs with
  | nil =>
    intro _
    constructor
    · rw [List.nil_append, List.takeWhile_cons_of_neg (by decide)]
    · rw [List.nil_append, List.dropWhile_cons_of_neg (by decide)]
  | cons x t ih =>
    intro hdot
    have hx : jsDot x = true := hdot x (List.mem_cons_self _ _)
    obtain ⟨h1, h2⟩ := ih (fun q hq => hdot q (List.mem_cons_of_mem _ hq))
    constructor
    · rw [List.cons_append, List.takeWhile_cons_of_pos hx, h1]
    · rw [List.cons_append, List.dropWhile_cons_of_pos hx, h2]

theorem tryMatch_build : ∀ (nm s2 : List Char), nm ≠ [] → (∀ c ∈ nm, jsDot c = true) →
    s2.head? = some '>' →
    tryMatch (hdrPat ++ (nm ++ '\n' :: s2)) =
      some ⟨nm, (bodyRun s2).1, (bodyRun s2).2,
        hdrPat.length + nm.length + 1 + (bodyRun s2).1.length,
        1 + countNl (bodyRun s2).1⟩ := by
  intro nm s2 hn0 hdot hhead
  unfold tryMatch
  rw [stripPfxCI_self]
  obtain ⟨htw, hdw⟩ := takeWhile_jsDot_append nm s2 hdot
  split
  · rename_i h
    cases h
  · rename_i s1 heq
    injection heq with heq
    subst heq
    cases hnm : nm with
    | nil => exact absurd hnm hn0
    | cons n0 nt =>
      cases s2 with
      | nil => cases hhead
      | cons c t =>
        have hc : c = '>' := by simpa using hhead
        subst hc
        subst hnm
        rw [htw, hdw]
        rfl

/-- The comment-marker pattern matches exactly a rendered block when the
following text does not begin with `>`. -/
theorem tryMatch_block : ∀ (b : Block) (rest : List Char), goodBlock b →
    rest.head? ≠ some '>' →
    tryMatch (renderBlock b ++ rest) =
      some ⟨b.bname, renderBody b.blines, rest,
        hdrPat.length + b.bname.length + 1 + (renderBody b.blines).length,
        1 + countNl (renderBody b.blines)⟩ := by
  intro b rest hb hrest
  obtain ⟨hn0, hnc, hbl0, hbls⟩ := hb
  have hassoc : renderBlock b ++ rest
      = hdrPat ++ (b.bname ++ '\n' :: (renderBody b.blines ++ rest)) := by
    simp [renderBlock]
  have hhead : (renderBody b.blines ++ rest).head? = some '>' := by
    cases hbl : b.blines with
    | nil => exact absurd hbl hbl0
    | cons l ls => rw [renderBody_cons]; rfl
  rw [hassoc, tryMatch_build b.bname _ hn0 (fun c hc => (hnc c hc).2) hhead,
    bodyRun_render b.blines hbl0 hbls rest hrest]

/-- The end-of-document variant: the block's final line has no trailing
newline. -/
theorem tryMatch_blockEnd : ∀ (b : Block), goodBlock b →
    tryMatch (renderBlockEnd b) =
      some ⟨b.bname, renderBodyEnd b.blines, [],
        hdrPat.length + b.bname.length + 1 + (renderBodyEnd b.blines).length,
        1 + countNl (renderBodyEnd b.blines)⟩ := by
  intro b hb
  obtain ⟨hn0, hnc, hbl0, hbls⟩ := hb
  have hassoc : renderBlockEnd b
      = hdrPat ++ (b.bname ++ '\n' :: renderBodyEnd b.blines) := by
    simp [renderBlockEnd]
  have hhead : (renderBodyEnd b.blines).head? = some '>' := by
    cases hbl : b.blines with
    | nil => exact absurd hbl hbl0
    | cons l ls => exact renderBodyEnd_head l ls
  rw [hassoc, tryMatch_build b.bname _ hn0 (fun c hc => (hnc c hc).2) hhead,
    bodyRun_renderEnd b.blines hbl0 hbls]

theorem countNl_renderLine {l : List Char} (h : '\n' ∉ l) :
    countNl (renderLine l) = 1 := by
  unfold renderLine
  rw [countNl_append, countNl_eq_zero l (fun c hc => fun e => h (e ▸ hc))]
  rfl

theorem goodLine_no_nl {l : List Char} (h : goodLine l) : '\n' ∉ l := by
  intro hm
  have := (h '\n' hm).2
  simp [jsDot] at this

theorem countNl_renderSep : ∀ ls : List (List Char), (∀ l ∈ ls, goodLine l) →
    countNl (renderSep ls) = ls.length := by
  intro ls
  induction ls with
  | nil => intro _; rfl
  | cons l t ih =>
    intro h
    show countNl (renderLine l ++ renderSep t) = t.length + 1
    rw [countNl_append, countNl_renderLine (goodLine_no_nl (h l (List.mem_cons_self _ _))),
      ih (fun q hq => h q (List.mem_cons_of_mem _ hq))]
    omega

theorem countNl_renderBody : ∀ bls : List (List Char), (∀ l ∈ bls, goodLine l) →
    countNl (renderBody bls) = bls.length := by
  intro bls
  induction bls with
  | nil => intro _; rfl
  | cons l t ih =>
    intro h
    rw [renderBody_cons]
    have hl := goodLine_no_nl (h l (List.mem_cons_self _ _))
    have h0 : countNl l = 0 := countNl_eq_zero l (fun c hc => fun e => hl (e ▸ hc))
    show countNl ('>' :: (l ++ '\n' :: renderBody t)) = t.length + 1
    simp only [countNl, countNl_append]
    rw [h0, ih (fun q hq => h q (List.mem_cons_of_mem _ hq))]
    simp [countNl]
    omega

theorem countNl_renderBodyEnd : ∀ bls : List (List Char), (∀ l ∈ bls, goodLine l) →
    countNl (renderBodyEnd bls) = bls.length - 1 := by
  intro bls
  induction bls with
  | nil => intro _; rfl
  | cons l t ih =>
    intro h
    have hl := goodLine_no_nl (h l (List.mem_cons_self _ _))
    have h0 : countNl l = 0 := countNl_eq_zero l (fun c hc => fun e => hl (e ▸ hc))
    cases t with
    | nil =>
      show countNl ('>' :: l) = 0
      simp only [countNl]
      rw [h0]
      simp
    | cons l2 t2 =>
      rw [renderBodyEnd_cons]
      show countNl ('>' :: (l ++ '\n' :: renderBodyEnd (l2 :: t2))) = (l2 :: t2).length
      simp only [countNl, countNl_append]
      rw [h0, ih (fun q hq => h q (List.mem_cons_of_mem _ hq))]
      simp [countNl]
      omega

theorem splitNl_app_line : ∀ (l r : List Char), '\n' ∉ l →
    splitNl (l ++ '\n' :: r) = l :: splitNl r := by
  intro l
  induction l with
  | nil => intro r _; simp [splitNl]
  | cons c t ih =>
    intro r h
    have hc : c ≠ '\n' := fun e => h (e ▸ List.mem_cons_self _ _)
    rw [List.cons_append]
    show splitNl (c :: (t ++ '\n' :: r)) = (c :: t) :: splitNl r
    simp only [splitNl, hc, if_false]
    rw [ih r (fun hm => h (List.mem_cons_of_mem _ hm))]
    simp [hc]

theorem splitNl_single : ∀ s : List Char, '\n' ∉ s → splitNl s = [s] := by
  intro s
  induction s with
  | nil => intro _; rfl
  | cons c t ih =>
    intro h
    have hc : c ≠ '\n' := fun e => h (e ▸ List.mem_cons_self _ _)
    simp only [splitNl, hc, if_false]
    rw [ih (fun hm => h (List.mem_cons_of_mem _ hm))]
    simp [hc]

theorem splitNl_renderSep_append : ∀ (ls : List (List Char)) (X : List Char),
    (∀ l ∈ ls, goodLine l) →
    splitNl (renderSep ls ++ X) = ls ++ splitNl X := by
  intro ls
  induction ls with
  | nil => intro X _; rfl
  | cons l t ih =>
    intro X h
    show splitNl ((renderLine l ++ renderSep t) ++ X) = (l :: t) ++ splitNl X
    rw [List.append_assoc]
    show splitNl ((l ++ ['\n']) ++ (renderSep t ++ X)) = (l :: t) ++ splitNl X
    rw [List.append_assoc]
    show splitNl (l ++ '\n' :: (renderSep t ++ X)) = (l :: t) ++ splitNl X
    rw [splitNl_app_line _ _ (goodLine_no_nl (h l (List.mem_cons_self _ _))),
      ih X (fun q hq => h q (List.mem_cons_of_mem _ hq))]
    rfl

theorem splitNl_renderBody_append : ∀ (bls : List (List Char)) (X : List Char),
    (∀ l ∈ bls, goodLine l) →
    splitNl (renderBody bls ++ X) = (bls.map (fun l => '>' :: l)) ++ splitNl X := by
  intro bls
  induction bls with
  | nil => intro X _; rfl
  | cons l t ih =>
    intro X h
    rw [renderBody_cons]
    have hgt : '\n' ∉ ('>' :: l) := by
      intro hm
      rcases List.mem_cons.1 hm with he | hm2
      · cases he
      · exact goodLine_no_nl (h l (List.mem_cons_self _ _)) hm2
    show splitNl (('>' :: (l ++ '\n' :: renderBody t)) ++ X)
        = ('>' :: l) :: (t.map (fun l => '>' :: l) ++ splitNl X)
    have : ('>' :: (l ++ '\n' :: renderBody t)) ++ X
        = ('>' :: l) ++ '\n' :: (renderBody t ++ X) := by simp
    rw [this, splitNl_app_line _ _ hgt, ih X (fun q hq => h q (List.mem_cons_of_mem _ hq))]

theorem stripLine_gtcons (l : List Char) : stripLine ('>' :: l) = jsTrim l := rfl

theorem stripLine_nil : stripLine [] = [] := rfl

theorem joinNl_app_nil : ∀ xs : List (List Char), xs ≠ [] →
    joinNl (xs ++ [[]]) = joinNl xs ++ ['\n'] := by
  intro xs
  induction xs with
  | nil => intro h; exact absurd rfl h
  | cons x t ih =>
    intro _
    cases t with
    | nil => rfl
    | cons y t2 =>
      show x ++ '\n' :: joinNl ((y :: t2) ++ [[]]) = (x ++ '\n' :: joinNl (y :: t2)) ++ ['\n']
      rw [ih (by simp)]
      simp

theorem map_stripLine_gt (bls : List (List Char)) :
    (bls.map (fun l => '>' :: l)).map stripLine = bls.map jsTrim := by
  rw [List.map_map]
  rfl

theorem contentOf_renderBody (bls : List (List Char)) (h0 : bls ≠ [])
    (h : ∀ l ∈ bls, goodLine l) :
    contentOf (renderBody bls) = joinNl (bls.map jsTrim) ++ ['\n'] := by
  unfold contentOf
  have : splitNl (renderBody bls) = (bls.map (fun l => '>' :: l)) ++ [[]] := by
    have := splitNl_renderBody_append bls [] h
    simpa using this
  rw [this, List.map_append, map_stripLine_gt]
  show joinNl (bls.map jsTrim ++ [stripLine []]) = joinNl (bls.map jsTrim) ++ ['\n']
  rw [stripLine_nil]
  exact joinNl_app_nil _ (by simpa using h0)

theorem splitNl_renderBodyEnd : ∀ bls : List (List Char), bls ≠ [] →
    (∀ l ∈ bls, goodLine l) →
    splitNl (renderBodyEnd bls) = bls.map (fun l => '>' :: l) := by
  intro bls
  induction bls with
  | nil => intro h; exact absurd rfl h
  | cons l t ih =>
    intro _ h
    have hgt : '\n' ∉ ('>' :: l) := by
      intro hm
      rcases List.mem_cons.1 hm with he | hm2
      · cases he
      · exact goodLine_no_nl (h l (List.mem_cons_self _ _)) hm2
    cases t with
    | nil =>
      show splitNl ('>' :: l) = [['>'] ++ l]
      rw [splitNl_single _ hgt]
      rfl
    | cons l2 t2 =>
      rw [renderBodyEnd_cons]
      show splitNl ('>' :: (l ++ '\n' :: renderBodyEnd (l2 :: t2)))
          = ('>' :: l) :: (l2 :: t2).map (fun l => '>' :: l)
      have : ('>' :: (l ++ '\n' :: renderBodyEnd (l2 :: t2)))
          = ('>' :: l) ++ '\n' :: renderBodyEnd (l2 :: t2) := by simp
      rw [this, splitNl_app_line _ _ hgt,
        ih (by simp) (fun q hq => h q (List.mem_cons_of_mem _ hq))]

theorem contentOf_renderBodyEnd (bls : List (List Char)) (h0 : bls ≠ [])
    (h : ∀ l ∈ bls, goodLine l) :
    contentOf (renderBodyEnd bls) = joinNl (bls.map jsTrim) := by
  unfold contentOf
  rw [splitNl_renderBodyEnd bls h0 h, map_stripLine_gt]

theorem mem_joinNl : ∀ (ls : List (List Char)) (c : Char), c ∈ joinNl ls →
    (∃ l ∈ ls, c ∈ l) ∨ c = '\n' := by
  intro ls
  induction ls with
  | nil => intro c h; cases h
  | cons l t ih =>
    intro c h
    cases t with
    | nil =>
      exact Or.inl ⟨l, List.mem_cons_self _ _, h⟩
    | cons l2 t2 =>
      rcases List.mem_append.1 h with h1 | h2
      · exact Or.inl ⟨l, List.mem_cons_self _ _, h1⟩
      · rcases List.mem_cons.1 h2 with rfl | h3
        · exact Or.inr rfl
        · rcases ih c h3 with ⟨q, hq, hcq⟩ | he
          · exact Or.inl ⟨q, List.mem_cons_of_mem _ hq, hcq⟩
          · exact Or.inr he

theorem charCI_gt_nl : charCI '>' '\n' = false := by decide

theorem contentSafe (bls : List (List Char)) (h : ∀ l ∈ bls, goodLine l) :
    ∀ c ∈ joinNl (bls.map jsTrim), charCI '>' c = false := by
  intro c hc
  rcases mem_joinNl _ c hc with ⟨l, hl, hcl⟩ | rfl
  · rw [List.mem_map] at hl
    obtain ⟨l0, hl0, rfl⟩ := hl
    exact (h l0 hl0 c (mem_jsTrim _ _ hcl)).1
  · exact charCI_gt_nl

theorem sepSafe (ls : List (List Char)) (h : ∀ l ∈ ls, goodLine l) :
    ∀ c ∈ renderSep ls, charCI '>' c = false := by
  intro c hc
  induction ls with
  | nil => cases hc
  | cons l t ih =>
    rcases List.mem_append.1 hc with h1 | h2
    · unfold renderLine at h1
      rcases List.mem_append.1 h1 with h3 | h4
      · exact (h l (List.mem_cons_self _ _) c h3).1
      · have : c = '\n' := by simpa using h4
        subst this
        exact charCI_gt_nl
    · exact ih (fun q hq => h q (List.mem_cons_of_mem _ hq)) h2

theorem not_gt_mem {X : List Char} (h : ∀ c ∈ X, charCI '>' c = false) : '>' ∉ X := by
  intro hm
  have := h '>' hm
  rw [charCI_gt_self] at this
  cases this

theorem truncGt_id {s : List Char} (h : '>' ∉ s) : truncGt s = s := by
  unfold truncGt
  rw [(idxOfGt_eq_none s).2 h]

theorem jsL_pos {n : Nat} (h : 0 < n) : jsL n = n + 1 := by
  unfold jsL
  rw [if_neg (by omega)]

theorem renderSep_pos {ls : List (List Char)} (h : ls ≠ []) : 0 < (renderSep ls).length := by
  cases ls with
  | nil => exact absurd rfl h
  | cons l t => simp [renderSep, renderLine]

theorem renderSep_head_ne (t : List (List Char)) (h : ∀ l ∈ t, goodLine l) :
    (renderSep t).head? ≠ some '>' := by
  cases t with
  | nil => simp [renderSep]
  | cons l t2 =>
    cases l with
    | nil => simp [renderSep, renderLine]
    | cons c l2 =>
      have hc : charCI '>' c = false := (h _ (List.mem_cons_self _ _) c (List.mem_cons_self _ _)).1
      show ((c :: l2 ++ ['\n']) ++ renderSep t2).head? ≠ some '>'
      simp only [List.cons_append, List.head?_cons]
      intro he
      exact ne_gt_of_safe hc (by simpa using he)

theorem contentSafeNl (bls : List (List Char)) (h : ∀ l ∈ bls, goodLine l) :
    ∀ c ∈ joinNl (bls.map jsTrim) ++ ['\n'], charCI '>' c = false := by
  intro c hc
  rcases List.mem_append.1 hc with h1 | h2
  · exact contentSafe bls h c h1
  · have : c = '\n' := by simpa using h2
    subst this
    exact charCI_gt_nl

/-- Extraction of filler lines, one comment block, trailing filler lines:
exactly that block comes back, with line-accurate positions. -/
theorem findComments_single : ∀ (s t : List (List Char)) (b : Block),
    s ≠ [] → (∀ l ∈ s, goodLine l) → (∀ l ∈ t, goodLine l) → goodBlock b →
    findComments (renderSep s ++ (renderBlock b ++ renderSep t)) =
      [Comment.mk (nameTs (jsTrim b.bname)).1 (joinNl (b.blines.map jsTrim) ++ ['\n'])
        ⟨s.length + 1, 0⟩ ⟨s.length + b.blines.length + 2, 0⟩
        ⟨s.length + b.blines.length + 2, 0⟩ [] (nameTs (jsTrim b.bname)).2 false] := by
  intro s t b hs0 hs ht hb
  unfold findComments
  have hfuel : (renderSep s ++ (renderBlock b ++ renderSep t)).length + 1
      = ((renderBlock b ++ renderSep t).length + 1) + (renderSep s).length := by
    simp [List.length_append]
    omega
  rw [hfuel, scanF_safe_append (renderSep s) (sepSafe s hs)]
  have hidx : 0 + (renderSep s).length ≠ 0 := by
    have := renderSep_pos hs0
    omega
  have htm := tryMatch_block b (renderSep t) hb (renderSep_head_ne t ht)
  rw [scanF_emit _ _ _ _ _ _ _ htm hidx]
  have hnlsep : countNl (renderSep s) = s.length := countNl_renderSep s hs
  have hnlbody : countNl (renderBody b.blines) = b.blines.length :=
    countNl_renderBody b.blines hb.2.2.2
  have hcontent : contentOf (renderBody b.blines) = joinNl (b.blines.map jsTrim) ++ ['\n'] :=
    contentOf_renderBody b.blines hb.2.2.1 hb.2.2.2
  have hslen : 0 < s.length := List.length_pos.2 hs0
  have hstart : jsL (0 + countNl (renderSep s)) + 0 = s.length + 1 := by
    rw [hnlsep, Nat.zero_add, Nat.add_zero, jsL_pos hslen]
  have hendarg : 0 + countNl (renderSep s) + (1 + countNl (renderBody b.blines))
      = s.length + 1 + b.blines.length := by
    rw [hnlsep, hnlbody]; omega
  have hend : jsL (0 + countNl (renderSep s) + (1 + countNl (renderBody b.blines))) + 0
      = s.length + b.blines.length + 2 := by
    rw [hendarg, jsL_pos (by omega)]
    omega
  rw [hcontent]
  rw [truncGt_id (not_gt_mem (contentSafeNl b.blines hb.2.2.2))]
  rw [scanF_all_safe _ _ (contentSafeNl b.blines hb.2.2.2)]
  rw [scanF_all_safe _ _ (sepSafe t ht)]
  rw [hstart, hend]
  rfl

/-- Extraction when the single block sits at the very end of the document
with no trailing newline: still captured, but the end line is one smaller. -/
theorem findComments_singleEnd : ∀ (s : List (List Char)) (b : Block),
    s ≠ [] → (∀ l ∈ s, goodLine l) → goodBlock b →
    findComments (renderSep s ++ renderBlockEnd b) =
      [Comment.mk (nameTs (jsTrim b.bname)).1 (joinNl (b.blines.map jsTrim))
        ⟨s.length + 1, 0⟩ ⟨s.length + b.blines.length + 1, 0⟩
        ⟨s.length + b.blines.length + 1, 0⟩ [] (nameTs (jsTrim b.bname)).2 false] := by
  intro s b hs0 hs hb
  unfold findComments
  have hfuel : (renderSep s ++ renderBlockEnd b).length + 1
      = ((renderBlockEnd b).length + 1) + (renderSep s).length := by
    simp [List.length_append]
    omega
  rw [hfuel, scanF_safe_append (renderSep s) (sepSafe s hs)]
  have hidx : 0 + (renderSep s).length ≠ 0 := by
    have := renderSep_pos hs0
    omega
  have htm := tryMatch_blockEnd b hb
  rw [scanF_emit _ _ _ _ _ _ _ htm hidx]
  have hnlsep : countNl (renderSep s) = s.length := countNl_renderSep s hs
  have hnlbody : countNl (renderBodyEnd b.blines) = b.blines.length - 1 :=
    countNl_renderBodyEnd b.blines hb.2.2.2
  have hbl : 0 < b.blines.length := List.length_pos.2 hb.2.2.1
  have hcontent : contentOf (renderBodyEnd b.blines) = joinNl (b.blines.map jsTrim) :=
    contentOf_renderBodyEnd b.blines hb.2.2.1 hb.2.2.2
  have hslen : 0 < s.length := List.length_pos.2 hs0
  have hstart : jsL (0 + countNl (renderSep s)) + 0 = s.length + 1 := by
    rw [hnlsep, Nat.zero_add, Nat.add_zero, jsL_pos hslen]
  have hendarg : 0 + countNl (renderSep s) + (1 + countNl (renderBodyEnd b.blines))
      = s.length + b.blines.length := by
    rw [hnlsep, hnlbody]; omega
  have hend : jsL (0 + countNl (renderSep s) + (1 + countNl (renderBodyEnd b.blines))) + 0
      = s.length + b.blines.length + 1 := by
    rw [hendarg, jsL_pos (by omega)]
  rw [hcontent]
  rw [truncGt_id (not_gt_mem (contentSafe b.blines hb.2.2.2))]
  rw [scanF_all_safe _ _ (contentSafe b.blines hb.2.2.2)]
  rw [scanF_nil]
  rw [hstart, hend]
  rfl

/-- Claim C5, amended. Write `k` for the number of filler lines before the
block and `n` for its body-line count, so the block spans 1-based lines
`k+1 .. k+1+n`. First conjunct: when the matched block ends with a newline
(here: it is the whole tail of the document, newline-terminated),
`endPos.line = k+n+2`, the line immediately following the full block.
Second conjunct: a block at the very end of the document with NO trailing
newline is still fully captured — same name, same content with every body
line present — but `endPos.line` is then `k+n+1`, the 1-based index of the
block's LAST line, one short of the following line. -/
theorem c5_amended : ∀ (s : List (List Char)) (b : Block),
    s ≠ [] → (∀ l ∈ s, goodLine l) → goodBlock b →
    (findComments (renderSep s ++ renderBlock b) =
      [Comment.mk (nameTs (jsTrim b.bname)).1 (joinNl (b.blines.map jsTrim) ++ ['\n'])
        ⟨s.length + 1, 0⟩ ⟨s.length + b.blines.length + 2, 0⟩
        ⟨s.length + b.blines.length + 2, 0⟩ [] (nameTs (jsTrim b.bname)).2 false]) ∧
    (findComments (renderSep s ++ renderBlockEnd b) =
      [Comment.mk (nameTs (jsTrim b.bname)).1 (joinNl (b.blines.map jsTrim))
        ⟨s.length + 1, 0⟩ ⟨s.length + b.blines.length + 1, 0⟩
        ⟨s.length + b.blines.length + 1, 0⟩ [] (nameTs (jsTrim b.bname)).2 false]) := by
  intro s b hs0 hs hb
  constructor
  · have := findComments_single s [] b hs0 hs (by intro l hl; cases hl) hb
    rw [show renderSep ([] : List (List Char)) = [] from rfl, List.append_nil] at this
    exact this
  · exact findComments_singleEnd s b hs0 hs hb

/-- Witness for C5 at a concrete input: one filler line `x`, then a block
`> [!comment] A` with single body line `> y`. -/
theorem c5_amended_witness :
    (findComments (renderSep [['x']] ++ renderBlock ⟨"A".toList, [[' ', 'y']]⟩) =
      [Comment.mk (nameTs (jsTrim "A".toList)).1
        (joinNl ([[' ', 'y']].map jsTrim) ++ ['\n'])
        ⟨2, 0⟩ ⟨4, 0⟩ ⟨4, 0⟩ [] (nameTs (jsTrim "A".toList)).2 false]) ∧
    (findComments (renderSep [['x']] ++ renderBlockEnd ⟨"A".toList, [[' ', 'y']]⟩) =
      [Comment.mk (nameTs (jsTrim "A".toList)).1 (joinNl ([[' ', 'y']].map jsTrim))
        ⟨2, 0⟩ ⟨3, 0⟩ ⟨3, 0⟩ [] (nameTs (jsTrim "A".toList)).2 false]) :=
  c5_amended [['x']] ⟨"A".toList, [[' ', 'y']]⟩ (by decide) (by decide) (by decide)

theorem jsSpliceDel_exact {α : Type} (pre mid post : List α) :
    jsSpliceDel (pre ++ (mid ++ post)) (pre.length : Int) (mid.length : Int)
      = pre ++ post := by
  simp only [jsSpliceDel]
  have hlen : ((pre ++ (mid ++ post)).length : Int) = pre.length + mid.length + post.length := by
    simp [List.length_append]
    omega
  rw [if_neg (by omega)]
  have hmin : min (pre.length : Int) ((pre ++ (mid ++ post)).length : Int)
      = (pre.length : Int) := by
    rw [hlen]
    omega
  rw [hmin]
  have hmax : max (mid.length : Int) 0 = (mid.length : Int) := by omega
  rw [hmax]
  have ht1 : (pre.length : Int).toNat = pre.length := by omega
  rw [ht1]
  have ht2 : (mid.length : Int).toNat = mid.length := by omega
  rw [ht2]
  rw [List.take_left, List.drop_left, List.drop_left]

theorem joinNl_sep : ∀ ls : List (List Char), joinNl (ls ++ [[]]) = renderSep ls := by
  intro ls
  induction ls with
  | nil => rfl
  | cons l t ih =>
    show joinNl (l :: (t ++ [[]])) = renderLine l ++ renderSep t
    cases he : t ++ [[]] with
    | nil => exact absurd he (by simp)
    | cons y ys =>
      have h1 : joinNl (l :: y :: ys) = l ++ '\n' :: joinNl (y :: ys) := rfl
      rw [h1, ← he, ih]
      simp [renderLine]

theorem hdrLine_no_nl (b : Block) (hb : goodBlock b) : '\n' ∉ hdrPat ++ b.bname := by
  intro hm
  rcases List.mem_append.1 hm with h1 | h2
  · revert h1; decide
  · exact jsDot_ne_nl (hb.2.1 '\n' h2).2 rfl

theorem splitNl_doc (s t : List (List Char)) (b : Block)
    (hs : ∀ l ∈ s, goodLine l) (ht : ∀ l ∈ t, goodLine l) (hb : goodBlock b) :
    splitNl (renderSep s ++ (renderBlock b ++ renderSep t))
      = s ++ (((hdrPat ++ b.bname) :: b.blines.map (fun l => '>' :: l)) ++ (t ++ [[]])) := by
  rw [splitNl_renderSep_append s _ hs]
  congr 1
  have hassoc : renderBlock b ++ renderSep t
      = (hdrPat ++ b.bname) ++ '\n' :: (renderBody b.blines ++ renderSep t) := by
    simp [renderBlock]
  rw [hassoc, splitNl_app_line _ _ (hdrLine_no_nl b hb),
    splitNl_renderBody_append _ _ hb.2.2.2]
  have hsep : splitNl (renderSep t) = t ++ [[]] := by
    have := splitNl_renderSep_append t [] ht
    simpa using this
  rw [hsep]
  simp

/-- Claim C7, amended: for a document made of nonempty `>`-free filler, one
comment block, and `>`-free trailing filler, removeComment on the extracted
comment splices out exactly the block's lines (the range starting at
0-indexed line `startPos.line - 1` spanning `endPos.line - startPos.line`
lines), leaving the two filler sections; re-extraction then yields zero
nodes (in particular none with the removed node's (name, content)), and the
line count shrinks by exactly `endPos.line - startPos.line`. The
counterexample shows the claim's zero-nodes consequence fails for general
documents once another comment shares the same (name, content). -/
theorem c7_amended : ∀ (s t : List (List Char)) (b : Block),
    s ≠ [] → (∀ l ∈ s, goodLine l) → (∀ l ∈ t, goodLine l) → goodBlock b →
    ∀ c ∈ findComments (renderSep s ++ (renderBlock b ++ renderSep t)),
      removeComment (renderSep s ++ (renderBlock b ++ renderSep t)) c
          = renderSep (s ++ t) ∧
      findComments (removeComment (renderSep s ++ (renderBlock b ++ renderSep t)) c) = [] ∧
      (splitNl (removeComment (renderSep s ++ (renderBlock b ++ renderSep t)) c)).length
          + (c.endPos.line - c.startPos.line)
        = (splitNl (renderSep s ++ (renderBlock b ++ renderSep t))).length := by
  intro s t b hs0 hs ht hb c hc
  rw [findComments_single s t b hs0 hs ht hb] at hc
  have hc : c = Comment.mk (nameTs (jsTrim b.bname)).1
      (joinNl (b.blines.map jsTrim) ++ ['\n'])
      ⟨s.length + 1, 0⟩ ⟨s.length + b.blines.length + 2, 0⟩
      ⟨s.length + b.blines.length + 2, 0⟩ [] (nameTs (jsTrim b.bname)).2 false :=
    List.mem_singleton.1 hc
  subst hc
  have hsplit := splitNl_doc s t b hs ht hb
  have hremove : removeComment (renderSep s ++ (renderBlock b ++ renderSep t))
      (Comment.mk (nameTs (jsTrim b.bname)).1 (joinNl (b.blines.map jsTrim) ++ ['\n'])
        ⟨s.length + 1, 0⟩ ⟨s.length + b.blines.length + 2, 0⟩
        ⟨s.length + b.blines.length + 2, 0⟩ [] (nameTs (jsTrim b.bname)).2 false)
      = renderSep (s ++ t) := by
    unfold removeComment
    simp only [Comment.startPos, Comment.endPos]
    rw [hsplit]
    have he1 : (((s.length + 1 : Nat) : Int)) - 1 = (s.length : Int) := by
      omega
    have he2 : (((s.length + b.blines.length + 2 : Nat) : Int))
        - (((s.length + 1 : Nat) : Int))
        = (((hdrPat ++ b.bname) :: b.blines.map (fun l => '>' :: l)).length : Int) := by
      simp
      omega
    rw [he1, he2]
    have := jsSpliceDel_exact s ((hdrPat ++ b.bname) :: b.blines.map (fun l => '>' :: l))
      (t ++ [[]])
    rw [this]
    rw [show s ++ (t ++ [[]]) = (s ++ t) ++ [[]] by simp]
    exact joinNl_sep (s ++ t)
  refine ⟨hremove, ?_, ?_⟩
  · rw [hremove]
    unfold findComments
    exact scanF_all_safe _ _ (sepSafe (s ++ t) (by
      intro l hl
      rcases List.mem_append.1 hl with h1 | h2
      · exact hs l h1
      · exact ht l h2)) _ _ _ _
  · simp only [Comment.startPos, Comment.endPos]
    rw [hremove, hsplit]
    have : splitNl (renderSep (s ++ t)) = (s ++ t) ++ [[]] := by
      have := splitNl_renderSep_append (s ++ t) [] (by
        intro l hl
        rcases List.mem_append.1 hl with h1 | h2
        · exact hs l h1
        · exact ht l h2)
      simpa using this
    rw [this]
    simp [List.length_append]
    omega

/-- Witness for C7 at a concrete input: filler `x`, block `> [!comment] A`
with body `>b`, filler `z`. -/
theorem c7_amended_witness :
    removeComment c7wdoc c7wc = renderSep ([['x']] ++ [['z']]) ∧
    findComments (removeComment c7wdoc c7wc) = [] ∧
    (splitNl (removeComment c7wdoc c7wc)).length + (c7wc.endPos.line - c7wc.startPos.line)
      = (splitNl c7wdoc).length :=
  c7_amended [['x']] [['z']] ⟨"A".toList, [['b']]⟩ (by decide) (by decide) (by decide)
    (by decide) c7wc
    (by show c7wc ∈ findComments c7wdoc
        rw [show findComments c7wdoc = [c7wc] from rfl]
        exact List.mem_singleton.mpr rfl)

theorem head_append_left {α : Type} (l m : List α) (h : l ≠ []) :
    (l ++ m).head? = l.head? := by
  cases l with
  | nil => exact absurd rfl h
  | cons x t => rfl

theorem renderSep_ne_nil {ls : List (List Char)} (h : ls ≠ []) : renderSep ls ≠ [] := by
  intro e
  have := renderSep_pos h
  rw [e] at this
  simp at this

theorem renderDoc_head_ne : ∀ (sbs : List (List (List Char) × Block)) (tl : List (List Char)),
    (∀ sb ∈ sbs, goodPair sb) → (∀ l ∈ tl, goodLine l) →
    (renderDoc sbs tl).head? ≠ some '>' := by
  intro sbs tl hgood htl
  cases sbs with
  | nil =>
    show (([] : List (List Char)).flatten ++ renderSep tl).head? ≠ some '>'
    exact renderSep_head_ne tl htl
  | cons sb rest =>
    obtain ⟨hs0, hsg, _⟩ := hgood sb (List.mem_cons_self _ _)
    have hd : renderDoc (sb :: rest) tl
        = renderSep sb.1 ++ (renderBlock sb.2 ++ renderDoc rest tl) := by
      simp [renderDoc, renderPair]
    rw [hd, head_append_left _ _ (renderSep_ne_nil hs0)]
    cases hsb : sb.1 with
    | nil => exact absurd hsb hs0
    | cons l t2 =>
      have hhg : ∀ q ∈ sb.1, goodLine q := hsg
      rw [hsb] at hhg
      cases l with
      | nil => simp [renderSep, renderLine]
      | cons c l2 =>
        have hc : charCI '>' c = false :=
          (hhg _ (List.mem_cons_self _ _) c (List.mem_cons_self _ _)).1
        show (((c :: l2 ++ ['\n']) ++ renderSep t2)).head? ≠ some '>'
        simp only [List.cons_append, List.head?_cons]
        intro he
        exact ne_gt_of_safe hc (by simpa using he)

theorem nameTs_plain {n : List Char} (h : plainName n) : nameTs (jsTrim n) = (n, none) := by
  rw [h.1]
  unfold nameTs
  rw [h.2]

theorem renderBlock_pos (b : Block) : 0 < (renderBlock b).length := by
  simp [renderBlock, hdrPat]

theorem scanF_renderDoc : ∀ (sbs : List (List (List Char) × Block)) (tl : List (List Char)),
    (∀ sb ∈ sbs, goodPair sb) → (∀ l ∈ tl, goodLine l) →
    ∀ f idx nl off inh, (renderDoc sbs tl).length < f →
    (scanF f (renderDoc sbs tl) idx nl off inh).map Comment.name
        = sbs.map (fun sb => (nameTs (jsTrim sb.2.bname)).1) ∧
    ∀ c ∈ scanF f (renderDoc sbs tl) idx nl off inh, c.children = [] := by
  intro sbs
  induction sbs with
  | nil =>
    intro tl _ htl f idx nl off inh _
    have hd : renderDoc [] tl = renderSep tl := by simp [renderDoc]
    rw [hd, scanF_all_safe f _ (sepSafe tl htl)]
    exact ⟨rfl, by intro c hc; cases hc⟩
  | cons sb rest ih =>
    intro tl hgood htl f idx nl off inh hf
    obtain ⟨hs0, hsg, hbg⟩ := hgood sb (List.mem_cons_self _ _)
    have hd : renderDoc (sb :: rest) tl
        = renderSep sb.1 ++ (renderBlock sb.2 ++ renderDoc rest tl) := by
      simp [renderDoc, renderPair]
    have hlen : (renderDoc (sb :: rest) tl).length
        = (renderSep sb.1).length + ((renderBlock sb.2).length + (renderDoc rest tl).length) := by
      rw [hd]
      simp [List.length_append]
    have hse : (renderSep sb.1).length ≤ f := by omega
    have hofe : f = (f - (renderSep sb.1).length) + (renderSep sb.1).length := by omega
    rw [hd, hofe, scanF_safe_append _ (sepSafe _ hsg)]
    have hg1 : 0 < f - (renderSep sb.1).length := by
      have := renderBlock_pos sb.2
      omega
    obtain ⟨g', hg'⟩ : ∃ g', f - (renderSep sb.1).length = g' + 1 :=
      ⟨f - (renderSep sb.1).length - 1, by omega⟩
    rw [hg']
    have htm := tryMatch_block sb.2 (renderDoc rest tl) hbg
      (renderDoc_head_ne rest tl (fun q hq => hgood q (List.mem_cons_of_mem _ hq)) htl)
    have hidx : idx + (renderSep sb.1).length ≠ 0 := by
      have := renderSep_pos hs0
      omega
    have hstep : scanF (g' + 1) (renderBlock sb.2 ++ renderDoc rest tl)
        (idx + (renderSep sb.1).length) (nl + countNl (renderSep sb.1)) off inh
        = Comment.mk (nameTs (jsTrim sb.2.bname)).1
            (truncGt (contentOf (renderBody sb.2.blines)))
            ⟨jsL (nl + countNl (renderSep sb.1)) + off, 0⟩
            ⟨jsL (nl + countNl (renderSep sb.1) + (1 + countNl (renderBody sb.2.blines))) + off, 0⟩
            (cPosOf inh (jsL (nl + countNl (renderSep sb.1) + (1 + countNl (renderBody sb.2.blines))) + off))
            (scanF g' (contentOf (renderBody sb.2.blines)) 0 0
              (jsL (nl + countNl (renderSep sb.1)) + off)
              (some (cPosOf inh (jsL (nl + countNl (renderSep sb.1) + (1 + countNl (renderBody sb.2.blines))) + off))))
            (nameTs (jsTrim sb.2.bname)).2 false ::
          scanF g' (renderDoc rest tl)
            (idx + (renderSep sb.1).length +
              (hdrPat.length + sb.2.bname.length + 1 + (renderBody sb.2.blines).length))
            (nl + countNl (renderSep sb.1) + (1 + countNl (renderBody sb.2.blines))) off inh := by
      rw [scanF_emit _ _ _ _ _ _ _ htm hidx]
    rw [hstep]
    have hcont : contentOf (renderBody sb.2.blines)
        = joinNl (sb.2.blines.map jsTrim) ++ ['\n'] :=
      contentOf_renderBody sb.2.blines hbg.2.2.1 hbg.2.2.2
    have hkids : scanF g' (contentOf (renderBody sb.2.blines)) 0 0
        (jsL (nl + countNl (renderSep sb.1)) + off)
        (some (cPosOf inh (jsL (nl + countNl (renderSep sb.1) + (1 + countNl (renderBody sb.2.blines))) + off))) = [] := by
      rw [hcont]
      exact scanF_all_safe _ _ (contentSafeNl sb.2.blines hbg.2.2.2) _ _ _ _
    have hrest := ih tl (fun q hq => hgood q (List.mem_cons_of_mem _ hq)) htl g'
      (idx + (renderSep sb.1).length +
        (hdrPat.length + sb.2.bname.length + 1 + (renderBody sb.2.blines).length))
      (nl + countNl (renderSep sb.1) + (1 + countNl (renderBody sb.2.blines))) off inh
      (by
        have := renderBlock_pos sb.2
        omega)
    constructor
    · rw [List.map_cons, hrest.1]
      rfl
    · intro c hc
      rcases List.mem_cons.1 hc with rfl | hc2
      · rw [Comment.children, hkids]
      · exact hrest.2 c hc2

/-- Claim C3, amended: for every well-formed input containing N top-level
non-nested comment blocks — each a header with an arbitrary name (timestamp
suffixes such as `NAME | 05/07/2025` included; only `>` and line
terminators are excluded from the name) plus at least one `>`-prefixed
continuation line, each preceded by at least one `>`-free filler line (so
no block starts at character offset 0, where the falsy-index guard would
drop it), with `>`-free trailing filler — extractComments returns exactly N
nodes, in document order (their name sequence equals the sequence of header
captures as the header parser returns them, i.e. trimmed and truncated at a
`'| '` separator when present), each with empty children. -/
theorem c3_amended : ∀ (sbs : List (List (List Char) × Block)) (tl : List (List Char)),
    (∀ sb ∈ sbs, goodPair sb) → (∀ l ∈ tl, goodLine l) →
    (findComments (renderDoc sbs tl)).map Comment.name
        = sbs.map (fun sb => (nameTs (jsTrim sb.2.bname)).1) ∧
    ∀ c ∈ findComments (renderDoc sbs tl), c.children = [] := by
  intro sbs tl h1 h2
  unfold findComments
  exact scanF_renderDoc sbs tl h1 h2 _ 0 0 0 none (by omega)

/-- Witness for C3 at a concrete input: a block named `A` and a block with
the timestamped header `B | 05/07/2025`, one body line each, separated by
filler lines, extract to exactly the two parsed names in document order. -/
theorem c3_amended_witness :
    (findComments (renderDoc c3sbs [])).map Comment.name = ["A".toList, "B ".toList] :=
  ((c3_amended c3sbs [] (by decide) (by decide)).1).trans rfl

end ObsComments
